import Mathlib

/-!
Verification of the filesystem pattern-matching layer declared in
`include/SDL3/SDL_filesystem.h` (`SDL_GlobDirectory`, `SDL_EnumerateDirectory`,
`SDL_GetPathInfo`).  The header only declares the API; the implementation is
not part of this source tree, so the five components named by the design
document (GlobMatcher, CallbackEnumerator, DirectoryReader, PathClassifier,
GlobWalker) are modelled here from the specification text and verified
against the specification's stated properties.
-/

set_option maxHeartbeats 2000000

namespace SDLFS

/-! ## Character folding (case-insensitive mode)

The specification allows ASCII-only case folding; `Char.toLower` from the
core library folds exactly the ASCII range A-Z. -/

/-- Modelled from the spec: the canonical-case folding used by
`SDL_GLOB_CASEINSENSITIVE` (ASCII folding, the documented acceptable
limitation). -/
def globFold (caseInsensitive : Bool) : Char → Char :=
  if caseInsensitive then Char.toLower else id

theorem char_toNat_ofNat {n : Nat} (h : n.isValidChar) : (Char.ofNat n).toNat = n := by
  unfold Char.ofNat
  rw [dif_pos h]
  rfl

theorem char_eq_of_toNat_eq {a b : Char} (h : a.toNat = b.toNat) : a = b :=
  Char.ext (UInt32.ext h)

/-- `Char.toLower` only moves characters inside A-Z, so equality with any
character below 'A' is untouched by folding. -/
theorem toLower_eq_low_iff {d : Char} (hd : d.toNat < 65) (c : Char) :
    Char.toLower c = d ↔ c = d := by
  unfold Char.toLower
  simp only [ge_iff_le, Bool.and_eq_true, decide_eq_true_eq]
  split
  case isTrue h =>
    have hv : (c.toNat + 32).isValidChar := by
      left
      omega
    constructor
    · intro he
      have hnat := congrArg Char.toNat he
      rw [char_toNat_ofNat hv] at hnat
      omega
    · intro he
      subst he
      omega
  case isFalse h => exact Iff.rfl

theorem toLower_eq_slash_iff (c : Char) : Char.toLower c = '/' ↔ c = '/' :=
  toLower_eq_low_iff (by decide) c

theorem toLower_eq_star_iff (c : Char) : Char.toLower c = '*' ↔ c = '*' :=
  toLower_eq_low_iff (by decide) c

theorem toLower_eq_quest_iff (c : Char) : Char.toLower c = '?' ↔ c = '?' :=
  toLower_eq_low_iff (by decide) c

/-- The property of a folding function that the path separator is a fixed
point and nothing else folds onto it.  Holds for `id` and `Char.toLower`. -/
def SlashFaithful (fold : Char → Char) : Prop :=
  ∀ c, fold c = '/' ↔ c = '/'

theorem slashFaithful_id : SlashFaithful id := fun _ => Iff.rfl

theorem slashFaithful_toLower : SlashFaithful Char.toLower :=
  toLower_eq_slash_iff

theorem slashFaithful_globFold (ci : Bool) : SlashFaithful (globFold ci) := by
  cases ci
  · exact slashFaithful_id
  · exact slashFaithful_toLower

/-! ## The wildcard matcher

The specification prescribes the implementation: a two-pointer loop over the
pattern and the candidate with a remembered last-star position (the pattern
suffix after the star and the candidate suffix at the mark).  `globMatchRun`
is that loop; it also counts its iterations so that the complexity
requirement can be stated.  The `star` argument is `some (p₁, m)` when a
star has been passed: `p₁` is the pattern after the star and `m` the
candidate suffix from which the star is currently absorbing. -/

/-- Length of the remembered backtrack mark (0 when no star was passed). -/
def starMarkLen : Option (List Char × List Char) → Nat
  | none => 0
  | some (_, m) => m.length

theorem lex3 {a b c a' b' c' : Nat}
    (h : a < a' ∨ (a = a' ∧ (b < b' ∨ (b = b' ∧ c < c')))) :
    Prod.Lex (· < ·) (Prod.Lex (· < ·) (· < ·)) (a, (b, c)) (a', (b', c')) := by
  rcases h with h | ⟨rfl, h | ⟨rfl, h⟩⟩
  · exact Prod.Lex.left _ _ h
  · exact Prod.Lex.right _ (Prod.Lex.left _ _ h)
  · exact Prod.Lex.right _ (Prod.Lex.right _ h)

/-- Modelled from the spec: the GlobMatcher loop of `SDL_GlobDirectory`
(implementation not in src/): greedy `*` with backtracking via a remembered
last-star position, `?` and `*` never matching '/', matching anchored at
both ends.  Returns the result and the number of loop iterations. -/
def globMatchRun (fold : Char → Char) (p s : List Char)
    (star : Option (List Char × List Char)) : Bool × Nat :=
  match s with
  | [] => ((p.dropWhile (· == '*')).isEmpty, 1)
  | c :: s' =>
    match p with
    | x :: p' =>
      if x = '*' then
        ((globMatchRun fold p' (c :: s') (some (p', c :: s'))).1,
         (globMatchRun fold p' (c :: s') (some (p', c :: s'))).2 + 1)
      else if (x = '?' ∧ c ≠ '/') ∨ (x ≠ '?' ∧ fold x = fold c) then
        ((globMatchRun fold p' s' star).1,
         (globMatchRun fold p' s' star).2 + 1)
      else
        match star with
        | some (p₁, d :: ms) =>
          if d = '/' then (false, 1)
          else ((globMatchRun fold p₁ ms (some (p₁, ms))).1,
                (globMatchRun fold p₁ ms (some (p₁, ms))).2 + 1)
        | _ => (false, 1)
    | [] =>
      match star with
      | some (p₁, d :: ms) =>
        if d = '/' then (false, 1)
        else ((globMatchRun fold p₁ ms (some (p₁, ms))).1,
              (globMatchRun fold p₁ ms (some (p₁, ms))).2 + 1)
      | _ => (false, 1)
  termination_by (max s.length (starMarkLen star), s.length, p.length)
  decreasing_by
  all_goals apply lex3
  all_goals try rcases star with _ | ⟨q, mm⟩
  all_goals simp only [starMarkLen, List.length_cons, true_and]
  all_goals omega

/-- The Boolean result of the two-pointer matcher loop. -/
def globMatchAux (fold : Char → Char) (p s : List Char)
    (star : Option (List Char × List Char)) : Bool :=
  (globMatchRun fold p s star).1

/-- The number of loop iterations of the two-pointer matcher loop. -/
def globMatchSteps (fold : Char → Char) (p s : List Char)
    (star : Option (List Char × List Char)) : Nat :=
  (globMatchRun fold p s star).2

/-- Modelled from the spec: `GlobMatcher.matches(candidate, pattern,
caseInsensitive)`; an absent (NULL) pattern always matches. -/
def globMatches (pattern : Option (List Char)) (name : List Char)
    (caseInsensitive : Bool) : Bool :=
  match pattern with
  | none => true
  | some pat => globMatchAux (globFold caseInsensitive) pat name none

/-- The single recognized flag bit of `SDL_GlobDirectory`. -/
def SDL_GLOB_CASEINSENSITIVE : Nat := 1

/-- Modelled from the spec: the pattern filter of `SDL_GlobDirectory` at the
`const char *` API level; unrecognized flag bits are ignored. -/
def SDL_GlobMatch (pattern : Option String) (name : String) (flags : Nat) : Bool :=
  globMatches (pattern.map String.toList) name.toList (flags.testBit 0)

/-! ## The specification matcher and the derivability relation -/

/-- The suffixes of `s` obtained by removing a prefix that contains no '/'
(the candidate remainders a `*` may leave). -/
def noSlashSuffixes : List Char → List (List Char)
  | [] => [[]]
  | c :: s => (c :: s) :: (if c = '/' then [] else noSlashSuffixes s)

/-- Second definition, written from the spec's words rather than from the
two-pointer implementation: a pattern matches if the candidate is derivable
from it, `?` standing for one non-'/' character, `*` for zero or more
non-'/' characters, literals (after folding) for themselves. -/
def globNaive (fold : Char → Char) : List Char → List Char → Bool
  | [] => fun s => s.isEmpty
  | x :: p => fun s =>
    if x = '*' then (noSlashSuffixes s).any (globNaive fold p)
    else
      match s with
      | [] => false
      | c :: s' =>
        if x = '?' then decide (c ≠ '/') && globNaive fold p s'
        else decide (fold x = fold c) && globNaive fold p s'

@[simp] theorem globNaive_nil (fold : Char → Char) (s : List Char) :
    globNaive fold [] s = s.isEmpty := rfl

theorem globNaive_cons (fold : Char → Char) (x : Char) (p : List Char) (s : List Char) :
    globNaive fold (x :: p) s =
      if x = '*' then (noSlashSuffixes s).any (globNaive fold p)
      else
        match s with
        | [] => false
        | c :: s' =>
          if x = '?' then decide (c ≠ '/') && globNaive fold p s'
          else decide (fold x = fold c) && globNaive fold p s' := rfl

/-- The derivability relation of the spec ("s is derivable from p by
replacing each `?` with exactly one character that is not '/' and each `*`
with zero or more characters none of which is '/'"), for case-sensitive
matching. -/
inductive GlobDerives : List Char → List Char → Prop
  | nil : GlobDerives [] []
  | lit {c : Char} {p s : List Char} :
      c ≠ '*' → c ≠ '?' → GlobDerives p s → GlobDerives (c :: p) (c :: s)
  | one {c : Char} {p s : List Char} :
      c ≠ '/' → GlobDerives p s → GlobDerives ('?' :: p) (c :: s)
  | star {t p s : List Char} :
      (∀ c ∈ t, c ≠ '/') → GlobDerives p s → GlobDerives ('*' :: p) (t ++ s)

/-! ## Basic lemmas about the specification matcher -/

theorem mem_noSlashSuffixes {s r : List Char} :
    r ∈ noSlashSuffixes s ↔ ∃ t, s = t ++ r ∧ ∀ c ∈ t, c ≠ '/' := by
  induction s generalizing r with
  | nil =>
    simp only [noSlashSuffixes, List.mem_singleton]
    constructor
    · rintro rfl
      exact ⟨[], rfl, by simp⟩
    · rintro ⟨t, ht, -⟩
      rcases List.append_eq_nil.mp ht.symm with ⟨rfl, rfl⟩
      rfl
  | cons c s ih =>
    simp only [noSlashSuffixes, List.mem_cons]
    constructor
    · rintro (rfl | hr)
      · exact ⟨[], rfl, by simp⟩
      · by_cases hc : c = '/'
        · simp [hc] at hr
        · simp only [if_neg hc] at hr
          rcases ih.mp hr with ⟨t, rfl, ht⟩
          refine ⟨c :: t, rfl, ?_⟩
          intro a ha
          rcases List.mem_cons.mp ha with rfl | ha
          · exact hc
          · exact ht a ha
    · rintro ⟨t, ht, hns⟩
      cases t with
      | nil =>
        left
        simpa using ht.symm
      | cons b t =>
        right
        obtain ⟨h1, h2⟩ := List.cons_eq_cons.mp ht
        subst h2
        have hb : c ≠ '/' := by
          rw [h1]
          exact hns b (List.mem_cons_self _ _)
        rw [if_neg hb]
        exact ih.mpr ⟨t, rfl, fun a ha => hns a (List.mem_cons_of_mem _ ha)⟩

theorem globNaive_star_any (fold : Char → Char) (p s : List Char) :
    globNaive fold ('*' :: p) s = (noSlashSuffixes s).any (globNaive fold p) := by
  rw [globNaive_cons, if_pos rfl]

theorem globNaive_quest_cons (fold : Char → Char) (p : List Char) (c : Char) (s : List Char) :
    globNaive fold ('?' :: p) (c :: s) = (decide (c ≠ '/') && globNaive fold p s) := by
  rw [globNaive_cons, if_neg (by decide : ('?' : Char) ≠ '*')]
  exact if_pos rfl

theorem globNaive_lit_cons (fold : Char → Char) {x : Char} (hx : x ≠ '*') (hq : x ≠ '?')
    (p : List Char) (c : Char) (s : List Char) :
    globNaive fold (x :: p) (c :: s) = (decide (fold x = fold c) && globNaive fold p s) := by
  rw [globNaive_cons, if_neg hx]
  exact if_neg hq

theorem globNaive_cons_nil (fold : Char → Char) {x : Char} (hx : x ≠ '*') (p : List Char) :
    globNaive fold (x :: p) [] = false := by
  rw [globNaive_cons, if_neg hx]

theorem globNaive_star_iff (fold : Char → Char) (p s : List Char) :
    globNaive fold ('*' :: p) s = true ↔
      ∃ t r, s = t ++ r ∧ (∀ c ∈ t, c ≠ '/') ∧ globNaive fold p r = true := by
  rw [globNaive_star_any, List.any_eq_true]
  constructor
  · rintro ⟨r, hr, hm⟩
    rcases mem_noSlashSuffixes.mp hr with ⟨t, rfl, ht⟩
    exact ⟨t, r, rfl, ht, hm⟩
  · rintro ⟨t, r, rfl, ht, hm⟩
    exact ⟨r, mem_noSlashSuffixes.mpr ⟨t, rfl, ht⟩, hm⟩

theorem globNaive_star_cons (fold : Char → Char) (p : List Char) (c : Char) (s : List Char) :
    globNaive fold ('*' :: p) (c :: s) =
      (globNaive fold p (c :: s) || (decide (c ≠ '/') && globNaive fold ('*' :: p) s)) := by
  rw [globNaive_star_any, globNaive_star_any]
  show ((c :: s) :: (if c = '/' then [] else noSlashSuffixes s)).any (globNaive fold p) = _
  by_cases hc : c = '/'
  · simp [hc]
  · simp [hc]

theorem globNaive_nil_right (fold : Char → Char) (p : List Char) :
    globNaive fold p [] = (p.dropWhile (· == '*')).isEmpty := by
  induction p with
  | nil => rfl
  | cons x p ih =>
    by_cases hx : x = '*'
    · subst hx
      rw [globNaive_star_any]
      show ([[]] : List (List Char)).any (globNaive fold p) = _
      simp only [List.any_cons, List.any_nil, Bool.or_false, List.dropWhile]
      simpa using ih
    · rw [globNaive_cons, if_neg hx]
      have : (x == '*') = false := by simpa using hx
      simp [List.dropWhile, this]

/-- A successful naive match consumes at least one candidate character per
non-star pattern character. -/
theorem globNaive_length_le (fold : Char → Char) (p : List Char) :
    ∀ s : List Char, globNaive fold p s = true →
      (p.filter (· != '*')).length ≤ s.length := by
  induction p with
  | nil => simp
  | cons x p ih =>
    intro s hs
    by_cases hx : x = '*'
    · subst hx
      rcases (globNaive_star_iff fold p s).mp hs with ⟨t, r, rfl, -, hm⟩
      have := ih r hm
      simp only [List.filter, List.length_append]
      simpa using le_trans this (by omega)
    · cases s with
      | nil => rw [globNaive_cons_nil fold hx] at hs; exact absurd hs (by simp)
      | cons c s =>
        have hxb : (x != '*') = true := by simpa using hx
        have hlen : (p.filter (· != '*')).length ≤ s.length := by
          by_cases hq : x = '?'
          · subst hq
            rw [globNaive_quest_cons] at hs
            exact ih s (by simp only [Bool.and_eq_true] at hs; exact hs.2)
          · rw [globNaive_lit_cons fold hx hq] at hs
            exact ih s (by simp only [Bool.and_eq_true] at hs; exact hs.2)
        simp only [List.filter, hxb, List.length_cons]
        omega

/-! ## The specification matcher agrees with the derivability relation -/

theorem globNaive_id_of_derives {p s : List Char} (h : GlobDerives p s) :
    globNaive id p s = true := by
  induction h with
  | nil => rfl
  | lit hstar hq _ ih =>
    rw [globNaive_lit_cons id hstar hq]
    simp [ih]
  | one hc _ ih =>
    rw [globNaive_quest_cons]
    simp [hc, ih]
  | star ht _ ih =>
    rename_i t p s _
    exact (globNaive_star_iff id p _).mpr ⟨t, s, rfl, ht, ih⟩

theorem derives_of_globNaive_id (p : List Char) :
    ∀ s : List Char, globNaive id p s = true → GlobDerives p s := by
  induction p with
  | nil =>
    intro s hs
    have : s = [] := by simpa using hs
    subst this
    exact GlobDerives.nil
  | cons x p ih =>
    intro s hs
    by_cases hx : x = '*'
    · subst hx
      rcases (globNaive_star_iff id p s).mp hs with ⟨t, r, rfl, ht, hm⟩
      exact GlobDerives.star ht (ih r hm)
    · cases s with
      | nil => rw [globNaive_cons_nil id hx] at hs; exact absurd hs (by simp)
      | cons c s =>
        by_cases hq : x = '?'
        · subst hq
          rw [globNaive_quest_cons] at hs
          simp only [Bool.and_eq_true] at hs
          rcases hs with ⟨hc, hm⟩
          exact GlobDerives.one (by simpa using hc) (ih s hm)
        · rw [globNaive_lit_cons id hx hq] at hs
          simp only [Bool.and_eq_true] at hs
          rcases hs with ⟨hc, hm⟩
          have hc' : x = c := by simpa using hc
          subst hc'
          exact GlobDerives.lit hx hq (ih s hm)

theorem globNaive_id_iff_derives (p s : List Char) :
    globNaive id p s = true ↔ GlobDerives p s :=
  ⟨derives_of_globNaive_id p s, globNaive_id_of_derives⟩

/-! ## Equivalence of the two-pointer loop with the specification matcher

The loop is greedy: after passing a `*` it forgets the previous remembered
star.  The proof that this loses no matches is the heart of the
verification: the candidate characters that the old star would additionally
absorb can never contain '/', by a periodicity argument on the star-free
pattern segment consumed since the mark. -/

/-- One-character match of a non-star pattern character against a candidate
character, exactly the test of the two-pointer loop. -/
def charMatch (fold : Char → Char) (x c : Char) : Prop :=
  (x = '?' ∧ c ≠ '/') ∨ (x ≠ '?' ∧ fold x = fold c)

theorem globNaive_consume (fold : Char → Char) {γ g : List Char}
    (hm : List.Forall₂ (charMatch fold) γ g) :
    (∀ x ∈ γ, x ≠ '*') → ∀ q r : List Char,
      globNaive fold (γ ++ q) (g ++ r) = globNaive fold q r := by
  induction hm with
  | nil => intro _ q r; rfl
  | cons hxc htail ih =>
    rename_i x c γ' g'
    intro hstar q r
    have hx : x ≠ '*' := hstar x (List.mem_cons_self _ _)
    have ih' := ih (fun y hy => hstar y (List.mem_cons_of_mem _ hy)) q r
    rcases hxc with ⟨hq, hc⟩ | ⟨hq, hfold⟩
    · subst hq
      rw [List.cons_append, List.cons_append, globNaive_quest_cons]
      simp [hc, ih']
    · rw [List.cons_append, List.cons_append, globNaive_lit_cons fold hx hq]
      simp [hfold, ih']

theorem globNaive_consume_inv (fold : Char → Char) (γ : List Char) :
    ∀ q r0 : List Char, (∀ x ∈ γ, x ≠ '*') → globNaive fold (γ ++ q) r0 = true →
      ∃ g r, r0 = g ++ r ∧ List.Forall₂ (charMatch fold) γ g ∧
        globNaive fold q r = true := by
  induction γ with
  | nil =>
    intro q r0 _ h
    exact ⟨[], r0, rfl, List.Forall₂.nil, h⟩
  | cons x γ ih =>
    intro q r0 hstar h
    have hx : x ≠ '*' := hstar x (List.mem_cons_self _ _)
    cases r0 with
    | nil =>
      rw [List.cons_append, globNaive_cons_nil fold hx] at h
      exact absurd h (by simp)
    | cons c r1 =>
      by_cases hq : x = '?'
      · subst hq
        rw [List.cons_append, globNaive_quest_cons] at h
        simp only [Bool.and_eq_true, decide_eq_true_eq] at h
        rcases h with ⟨hc, h⟩
        rcases ih q r1 (fun y hy => hstar y (List.mem_cons_of_mem _ hy)) h with
          ⟨g, r, rfl, hfa, hq2⟩
        exact ⟨c :: g, r, rfl, List.Forall₂.cons (Or.inl ⟨rfl, hc⟩) hfa, hq2⟩
      · rw [List.cons_append, globNaive_lit_cons fold hx hq] at h
        simp only [Bool.and_eq_true, decide_eq_true_eq] at h
        rcases h with ⟨hfold, h⟩
        rcases ih q r1 (fun y hy => hstar y (List.mem_cons_of_mem _ hy)) h with
          ⟨g, r, rfl, hfa, hq2⟩
        exact ⟨c :: g, r, rfl, List.Forall₂.cons (Or.inr ⟨hq, hfold⟩) hfa, hq2⟩

theorem getD_drop (l : List Char) (n j : Nat) :
    (l.drop n).getD j ' ' = l.getD (n + j) ' ' := by
  rcases Nat.lt_or_ge (n + j) l.length with h | h
  · rw [List.getD_eq_getElem _ _ (by simp [List.length_drop]; omega),
      List.getD_eq_getElem _ _ h, List.getElem_drop]
  · rw [List.getD_eq_default _ _ (by simp [List.length_drop]; omega),
      List.getD_eq_default _ _ h]

theorem mem_take_getD {s : List Char} {δ : Nat} {a : Char} (ha : a ∈ s.take δ) :
    ∃ j, j < δ ∧ s.getD j ' ' = a := by
  rcases List.mem_iff_get.mp ha with ⟨⟨i, hi⟩, hget⟩
  have h1 : i < δ := by
    simp only [List.length_take] at hi
    omega
  have h2 : i < s.length := by
    simp only [List.length_take] at hi
    omega
  refine ⟨i, h1, ?_⟩
  rw [List.getD_eq_getElem _ _ h2, ← hget, List.get_eq_getElem, List.getElem_take]

theorem forall₂_getD {fold : Char → Char} {γ g : List Char}
    (h : List.Forall₂ (charMatch fold) γ g) (i : Nat) (hi : i < γ.length) :
    charMatch fold (γ.getD i ' ') (g.getD i ' ') := by
  have hlen := h.length_eq
  have hg := (List.forall₂_iff_get.mp h).2 i hi (by omega)
  rw [List.getD_eq_getElem _ _ hi, List.getD_eq_getElem _ _ (by omega : i < g.length)]
  simpa [List.get_eq_getElem] using hg

/-- The periodicity argument: if the star-free segment `γ` matches both at
offset 0 and at offset `δ` of the same candidate, and the first `δ`
candidate characters are not '/', then no candidate character before
`γ.length + δ` is '/'. -/
theorem chain_no_slash (fold : Char → Char) (hf : SlashFaithful fold)
    (γ m : List Char) (δ : Nat) (hδ : 1 ≤ δ)
    (h1 : ∀ i, i < γ.length → charMatch fold (γ.getD i ' ') (m.getD i ' '))
    (h2 : ∀ i, i < γ.length → charMatch fold (γ.getD i ' ') (m.getD (δ + i) ' '))
    (h3 : ∀ i, i < δ → m.getD i ' ' ≠ '/') :
    ∀ x, x < γ.length + δ → m.getD x ' ' ≠ '/' := by
  intro x
  induction x using Nat.strong_induction_on with
  | _ x ih =>
    intro hx
    by_cases hxδ : x < δ
    · exact h3 x hxδ
    · intro hslash
      have hi : x - δ < γ.length := by omega
      have hcm := h2 (x - δ) hi
      rw [show δ + (x - δ) = x by omega] at hcm
      have hγs : γ.getD (x - δ) ' ' = '/' := by
        rcases hcm with ⟨_, hc⟩ | ⟨_, hfold⟩
        · exact absurd hslash hc
        · rw [hslash, (hf '/').mpr rfl] at hfold
          exact (hf _).mp hfold
      have hcm1 := h1 (x - δ) hi
      rw [hγs] at hcm1
      have hms : m.getD (x - δ) ' ' = '/' := by
        rcases hcm1 with ⟨hq, _⟩ | ⟨_, hfold⟩
        · exact absurd hq (by decide)
        · rw [(hf '/').mpr rfl] at hfold
          exact (hf _).mp hfold.symm
      exact ih (x - δ) (by omega) (by omega) hms

/-- The greedy loop may forget the old remembered star when it passes a new
one: every match the old star could still reach is also reachable through
the new star. -/
theorem globNaive_forget (fold : Char → Char) (hf : SlashFaithful fold)
    {γ g p' s m : List Char}
    (hmm : m = g ++ s)
    (hγ : ∀ x ∈ γ, x ≠ '*') (hfa : List.Forall₂ (charMatch fold) γ g)
    {d : Char} {ms : List Char} (hcons : m = d :: ms) (hd : d ≠ '/')
    (hnaive : globNaive fold ('*' :: (γ ++ '*' :: p')) ms = true) :
    globNaive fold ('*' :: p') s = true := by
  rcases (globNaive_star_iff fold _ ms).mp hnaive with ⟨t, r, hms, ht, hr⟩
  rcases globNaive_consume_inv fold γ ('*' :: p') r hγ hr with ⟨g2, r2, hrr, hfa2, hr2⟩
  subst hrr
  subst hms
  -- geometry of the two decompositions of m
  have hlg : γ.length = g.length := hfa.length_eq
  have hlg2 : γ.length = g2.length := hfa2.length_eq
  have hm2 : m = ((d :: t) ++ g2) ++ r2 := by
    rw [hcons]
    simp [List.append_assoc]
  set δ := (d :: t).length with hδdef
  have hδ : 1 ≤ δ := by simp [hδdef]
  have hslen : s.length = δ + r2.length := by
    have h1 : m.length = g.length + s.length := by rw [hmm]; simp
    have h2 : m.length = δ + g2.length + r2.length := by rw [hm2]; simp [hδdef]; omega
    omega
  -- s is the part of m after g
  have hs_drop : s = m.drop γ.length := by
    rw [hmm, hlg, List.drop_left]
  have hr2_drop : r2 = m.drop (γ.length + δ) := by
    rw [hm2]
    rw [show γ.length + δ = ((d :: t) ++ g2).length by simp [hδdef]; omega]
    rw [List.drop_left]
  -- the candidate characters between the old and the new position
  have hkey : ∀ x, x < γ.length + δ → m.getD x ' ' ≠ '/' := by
    apply chain_no_slash fold hf γ m δ hδ
    · -- γ matches m at offset 0 (through g)
      intro i hi
      have hcm := forall₂_getD hfa i hi
      have he : m.getD i ' ' = g.getD i ' ' := by
        rw [hmm]
        exact List.getD_append _ _ _ _ (by omega)
      rw [he]
      exact hcm
    · -- γ matches m at offset δ (through g2)
      intro i hi
      have hcm := forall₂_getD hfa2 i hi
      have hdt : (d :: t).length = δ := hδdef.symm
      have he : m.getD (δ + i) ' ' = g2.getD i ' ' := by
        rw [hm2, List.append_assoc]
        rw [List.getD_append_right (d :: t) (g2 ++ r2) ' ' (δ + i) (by omega)]
        rw [show δ + i - (d :: t).length = i by omega]
        exact List.getD_append _ _ _ _ (by omega)
      rw [he]
      exact hcm
    · -- the first δ characters of m are the old star extension, no '/'
      intro i hi
      have hdt : (d :: t).length = δ := hδdef.symm
      have he : m.getD i ' ' = (d :: t).getD i ' ' := by
        rw [hm2, List.append_assoc]
        exact List.getD_append _ _ _ _ (by omega)
      rw [he, List.getD_eq_getElem _ _ (by omega : i < (d :: t).length)]
      have hmem : (d :: t).get ⟨i, by omega⟩ ∈ d :: t := List.get_mem _ _ _
      rw [List.get_eq_getElem] at hmem
      rcases List.mem_cons.mp hmem with he2 | he2
      · rw [he2]; exact hd
      · exact ht _ he2
  -- conclude: the new star absorbs s.take δ and continues as the found match
  apply (globNaive_star_iff fold p' s).mpr
  rcases (globNaive_star_iff fold p' r2).mp hr2 with ⟨t2, r3, hsplit, ht2, hr3⟩
  refine ⟨s.take δ ++ t2, r3, ?_, ?_, hr3⟩
  · rw [List.append_assoc, ← hsplit]
    conv_lhs => rw [← List.take_append_drop δ s]
    congr 1
    rw [hs_drop, List.drop_drop, ← hr2_drop]
  · intro a ha
    rcases List.mem_append.mp ha with ha | ha
    · -- a is one of the first δ characters of s, i.e. of m after γ.length
      rcases mem_take_getD ha with ⟨j, hjδ, hja⟩
      have he : a = m.getD (γ.length + j) ' ' := by
        rw [← hja, hs_drop, getD_drop]
      rw [he]
      exact hkey _ (by omega)
    · exact ht2 a ha

/-! ## The loop invariant and the main equivalence -/

/-- Reachability invariant of the two-pointer loop: since the remembered
star was set, a star-free pattern segment has been consumed against the
candidate segment after the mark. -/
def MatchStarInv (fold : Char → Char) (p s : List Char) :
    Option (List Char × List Char) → Prop
  | none => True
  | some (p₁, m) => ∃ γ g, p₁ = γ ++ p ∧ m = g ++ s ∧ (∀ x ∈ γ, x ≠ '*') ∧
      List.Forall₂ (charMatch fold) γ g

/-- The matches still reachable by extending the remembered star by at least
one more candidate character. -/
def ExtOK (fold : Char → Char) : Option (List Char × List Char) → Prop
  | none => False
  | some (_, []) => False
  | some (p₁, d :: ms) => d ≠ '/' ∧ globNaive fold ('*' :: p₁) ms = true

theorem globMatchAux_nil_right (fold : Char → Char) (p : List Char)
    (star : Option (List Char × List Char)) :
    globMatchAux fold p [] star = (p.dropWhile (· == '*')).isEmpty := by
  rw [globMatchAux, globMatchRun]

/-- The naive matcher unfolded one star extension at a time. -/
theorem globNaive_star_cons_iff (fold : Char → Char) (p : List Char) (c : Char)
    (s : List Char) :
    globNaive fold ('*' :: p) (c :: s) = true ↔
      globNaive fold p (c :: s) = true ∨
        (c ≠ '/' ∧ globNaive fold ('*' :: p) s = true) := by
  rw [globNaive_star_cons]
  simp [Bool.or_eq_true, Bool.and_eq_true]

theorem extOK_some_iff (fold : Char → Char) (p₁ m : List Char) :
    ExtOK fold (some (p₁, m)) ↔
      ∃ d ms, m = d :: ms ∧ d ≠ '/' ∧ globNaive fold ('*' :: p₁) ms = true := by
  cases m with
  | nil => simp [ExtOK]
  | cons d ms =>
    simp only [ExtOK]
    constructor
    · rintro ⟨h1, h2⟩
      exact ⟨d, ms, rfl, h1, h2⟩
    · rintro ⟨e, ms2, he, h1, h2⟩
      obtain ⟨rfl, rfl⟩ := List.cons_eq_cons.mp he
      exact ⟨h1, h2⟩

theorem globMatchAux_star_set (fold : Char → Char) (p' : List Char) (c : Char)
    (s' : List Char) (star : Option (List Char × List Char)) :
    globMatchAux fold ('*' :: p') (c :: s') star =
      globMatchAux fold p' (c :: s') (some (p', c :: s')) := by
  unfold globMatchAux
  conv_lhs => rw [globMatchRun.eq_def]
  dsimp only
  rw [if_pos rfl]

theorem globMatchAux_consume (fold : Char → Char) {x c : Char} (hx : ¬x = '*')
    (hcond : (x = '?' ∧ c ≠ '/') ∨ (x ≠ '?' ∧ fold x = fold c))
    (p' s' : List Char) (star : Option (List Char × List Char)) :
    globMatchAux fold (x :: p') (c :: s') star = globMatchAux fold p' s' star := by
  unfold globMatchAux
  conv_lhs => rw [globMatchRun.eq_def]
  dsimp only
  rw [if_neg hx, if_pos hcond]

theorem globMatchAux_backtrack (fold : Char → Char) {x c : Char} (hx : ¬x = '*')
    (hcond : ¬((x = '?' ∧ c ≠ '/') ∨ (x ≠ '?' ∧ fold x = fold c)))
    {d : Char} (hd : ¬d = '/') (p' s' p₁ ms : List Char) :
    globMatchAux fold (x :: p') (c :: s') (some (p₁, d :: ms)) =
      globMatchAux fold p₁ ms (some (p₁, ms)) := by
  unfold globMatchAux
  conv_lhs => rw [globMatchRun.eq_def]
  dsimp only
  rw [if_neg hx, if_neg hcond, if_neg hd]

theorem globMatchAux_backtrack_slash (fold : Char → Char) {x c : Char} (hx : ¬x = '*')
    (hcond : ¬((x = '?' ∧ c ≠ '/') ∨ (x ≠ '?' ∧ fold x = fold c)))
    (p' s' p₁ ms : List Char) :
    globMatchAux fold (x :: p') (c :: s') (some (p₁, '/' :: ms)) = false := by
  unfold globMatchAux
  conv_lhs => rw [globMatchRun.eq_def]
  dsimp only
  rw [if_neg hx, if_neg hcond, if_pos rfl]

theorem globMatchAux_fail_none (fold : Char → Char) {x c : Char} (hx : ¬x = '*')
    (hcond : ¬((x = '?' ∧ c ≠ '/') ∨ (x ≠ '?' ∧ fold x = fold c)))
    (p' s' : List Char) :
    globMatchAux fold (x :: p') (c :: s') none = false := by
  unfold globMatchAux
  conv_lhs => rw [globMatchRun.eq_def]
  dsimp only
  rw [if_neg hx, if_neg hcond]

theorem globMatchAux_fail_mark_nil (fold : Char → Char) {x c : Char} (hx : ¬x = '*')
    (hcond : ¬((x = '?' ∧ c ≠ '/') ∨ (x ≠ '?' ∧ fold x = fold c)))
    (p' s' p₁ : List Char) :
    globMatchAux fold (x :: p') (c :: s') (some (p₁, [])) = false := by
  unfold globMatchAux
  conv_lhs => rw [globMatchRun.eq_def]
  dsimp only
  rw [if_neg hx, if_neg hcond]

theorem globMatchAux_nil_backtrack (fold : Char → Char) {d : Char} (hd : ¬d = '/')
    (c : Char) (s' p₁ ms : List Char) :
    globMatchAux fold [] (c :: s') (some (p₁, d :: ms)) =
      globMatchAux fold p₁ ms (some (p₁, ms)) := by
  unfold globMatchAux
  conv_lhs => rw [globMatchRun.eq_def]
  dsimp only
  rw [if_neg hd]

theorem globMatchAux_nil_backtrack_slash (fold : Char → Char)
    (c : Char) (s' p₁ ms : List Char) :
    globMatchAux fold [] (c :: s') (some (p₁, '/' :: ms)) = false := by
  unfold globMatchAux
  conv_lhs => rw [globMatchRun.eq_def]
  dsimp only
  rw [if_pos rfl]

theorem globMatchAux_nil_fail_none (fold : Char → Char) (c : Char) (s' : List Char) :
    globMatchAux fold [] (c :: s') none = false := by
  unfold globMatchAux
  conv_lhs => rw [globMatchRun.eq_def]

theorem globMatchAux_nil_fail_mark_nil (fold : Char → Char) (c : Char)
    (s' p₁ : List Char) :
    globMatchAux fold [] (c :: s') (some (p₁, [])) = false := by
  unfold globMatchAux
  conv_lhs => rw [globMatchRun.eq_def]

theorem globNaive_cond_false (fold : Char → Char) {x c : Char} (hx : ¬x = '*')
    (hcond : ¬((x = '?' ∧ c ≠ '/') ∨ (x ≠ '?' ∧ fold x = fold c)))
    (p s : List Char) :
    globNaive fold (x :: p) (c :: s) = false := by
  by_cases hq : x = '?'
  · subst hq
    rw [globNaive_quest_cons]
    have hc : c = '/' := by
      by_contra hc
      exact hcond (Or.inl ⟨rfl, hc⟩)
    simp [hc]
  · rw [globNaive_lit_cons fold hx hq]
    have hfc : fold x ≠ fold c := fun he => hcond (Or.inr ⟨hq, he⟩)
    simp [hfc]

theorem globNaive_star_extOK (fold : Char → Char) (p₁ ms : List Char) :
    globNaive fold ('*' :: p₁) ms = true ↔
      globNaive fold p₁ ms = true ∨ ExtOK fold (some (p₁, ms)) := by
  cases ms with
  | nil =>
    rw [globNaive_star_any]
    show (globNaive fold p₁ [] || false) = true ↔ _
    simp [ExtOK]
  | cons e ms' =>
    rw [globNaive_star_cons_iff]
    simp only [ExtOK]

theorem globMatchAux_eq_aux (fold : Char → Char) (hf : SlashFaithful fold) :
    ∀ (p s : List Char) (star : Option (List Char × List Char)),
      MatchStarInv fold p s star →
      (globMatchAux fold p s star = true ↔
        (globNaive fold p s = true ∨ ExtOK fold star)) := by
  intro p s star
  induction p, s, star using globMatchRun.induct fold with
  | case1 p star =>
    intro hinv
    rw [globMatchAux_nil_right, ← globNaive_nil_right]
    constructor
    · exact fun h => Or.inl h
    · rintro (h | hext)
      · exact h
      · exfalso
        cases star with
        | none => exact hext
        | some pm =>
          obtain ⟨p₁, m⟩ := pm
          rcases (extOK_some_iff fold p₁ m).mp hext with ⟨d, ms, rfl, hd, hn⟩
          rcases hinv with ⟨γ, g, hp₁, hm, hγ, hfa⟩
          rw [List.append_nil] at hm
          have hlen := hfa.length_eq
          have hle := globNaive_length_le fold ('*' :: p₁) ms hn
          have hfilter : γ.length ≤ (('*' :: p₁).filter (· != '*')).length := by
            subst hp₁
            have hstep : (('*' :: (γ ++ p)).filter (· != '*')) =
                ((γ ++ p).filter (· != '*')) := by
              simp [List.filter]
            rw [hstep, List.filter_append]
            have hγeq : γ.filter (· != '*') = γ :=
              List.filter_eq_self.mpr (fun a ha => by simpa using hγ a ha)
            rw [hγeq]
            simp
          have hms : g.length = ms.length + 1 := by rw [← hm]; rfl
          omega
  | case2 star c s' p' ih =>
    intro hinv
    rw [globMatchAux_star_set]
    have hinv' : MatchStarInv fold p' (c :: s') (some (p', c :: s')) :=
      ⟨[], [], rfl, rfl, by simp, List.Forall₂.nil⟩
    rw [ih hinv']
    constructor
    · rintro (h | hext)
      · exact Or.inl ((globNaive_star_cons_iff fold p' c s').mpr (Or.inl h))
      · rcases (extOK_some_iff fold p' (c :: s')).mp hext with ⟨d, ms, heq, hd, hn⟩
        obtain ⟨rfl, rfl⟩ := List.cons_eq_cons.mp heq
        exact Or.inl ((globNaive_star_cons_iff fold p' _ _).mpr (Or.inr ⟨hd, hn⟩))
    · rintro (h | hext)
      · rcases (globNaive_star_cons_iff fold p' c s').mp h with h | ⟨hc, hn⟩
        · exact Or.inl h
        · exact Or.inr ((extOK_some_iff fold p' (c :: s')).mpr ⟨c, s', rfl, hc, hn⟩)
      · have hforget : globNaive fold ('*' :: p') (c :: s') = true := by
          cases star with
          | none => exact absurd hext (by simp [ExtOK])
          | some pm =>
            obtain ⟨p₁, m⟩ := pm
            rcases (extOK_some_iff fold p₁ m).mp hext with ⟨d, ms, hm, hd, hn⟩
            rcases hinv with ⟨γ, g, hp₁, hmg, hγ, hfa⟩
            subst hp₁
            exact globNaive_forget fold hf hmg hγ hfa hm hd hn
        rcases (globNaive_star_cons_iff fold p' c s').mp hforget with h | ⟨hc, hn2⟩
        · exact Or.inl h
        · exact Or.inr ((extOK_some_iff fold p' (c :: s')).mpr ⟨c, s', rfl, hc, hn2⟩)
  | case3 star c s' x p' hx hcond ih =>
    intro hinv
    rw [globMatchAux_consume fold hx hcond]
    have hinv' : MatchStarInv fold p' s' star := by
      cases star with
      | none => trivial
      | some pm =>
        obtain ⟨p₁, m⟩ := pm
        rcases hinv with ⟨γ, g, hp₁, hm, hγ, hfa⟩
        refine ⟨γ ++ [x], g ++ [c], by simp [hp₁], by simp [hm], ?_, ?_⟩
        · intro y hy
          rcases List.mem_append.mp hy with hy | hy
          · exact hγ y hy
          · rw [List.mem_singleton.mp hy]
            exact hx
        · exact List.rel_append hfa (List.Forall₂.cons hcond List.Forall₂.nil)
    rw [ih hinv']
    have hstep : globNaive fold (x :: p') (c :: s') = globNaive fold p' s' := by
      rcases hcond with ⟨hq, hc⟩ | ⟨hq, hfold⟩
      · subst hq
        rw [globNaive_quest_cons]
        simp [hc]
      · rw [globNaive_lit_cons fold hx hq]
        simp [hfold]
    rw [hstep]
  | case4 c s' x p' hx hcond p₁ ms =>
    intro _
    rw [globMatchAux_backtrack_slash fold hx hcond]
    rw [globNaive_cond_false fold hx hcond]
    simp [ExtOK]
  | case5 c s' x p' hx hcond p₁ d ms hd ih =>
    intro _
    rw [globMatchAux_backtrack fold hx hcond hd]
    have hinv' : MatchStarInv fold p₁ ms (some (p₁, ms)) :=
      ⟨[], [], rfl, rfl, by simp, List.Forall₂.nil⟩
    rw [ih hinv']
    rw [globNaive_cond_false fold hx hcond]
    rw [← globNaive_star_extOK]
    simp only [ExtOK, Bool.false_eq_true, false_or]
    constructor
    · exact fun h => ⟨hd, h⟩
    · exact fun h => h.2
  | case6 star c s' x p' hx hcond hnostar =>
    intro _
    have hfalse : globMatchAux fold (x :: p') (c :: s') star = false := by
      cases star with
      | none => exact globMatchAux_fail_none fold hx hcond p' s'
      | some pm =>
        obtain ⟨p₁, m⟩ := pm
        cases m with
        | nil => exact globMatchAux_fail_mark_nil fold hx hcond p' s' p₁
        | cons d ms => exact absurd rfl (fun h => hnostar p₁ d ms h)
    rw [hfalse, globNaive_cond_false fold hx hcond]
    have hext : ¬ ExtOK fold star := by
      cases star with
      | none => simp [ExtOK]
      | some pm =>
        obtain ⟨p₁, m⟩ := pm
        cases m with
        | nil => simp [ExtOK]
        | cons d ms => exact absurd rfl (fun h => hnostar p₁ d ms h)
    simp [hext]
  | case7 c s' p₁ ms =>
    intro _
    rw [globMatchAux_nil_backtrack_slash]
    simp [ExtOK, globNaive]
  | case8 c s' p₁ d ms hd ih =>
    intro _
    rw [globMatchAux_nil_backtrack fold hd]
    have hinv' : MatchStarInv fold p₁ ms (some (p₁, ms)) :=
      ⟨[], [], rfl, rfl, by simp, List.Forall₂.nil⟩
    rw [ih hinv']
    rw [← globNaive_star_extOK]
    simp only [ExtOK, globNaive_nil, List.isEmpty_cons, Bool.false_eq_true, false_or]
    constructor
    · exact fun h => ⟨hd, h⟩
    · exact fun h => h.2
  | case9 star c s' hnostar =>
    intro _
    have hfalse : globMatchAux fold [] (c :: s') star = false := by
      cases star with
      | none => exact globMatchAux_nil_fail_none fold c s'
      | some pm =>
        obtain ⟨p₁, m⟩ := pm
        cases m with
        | nil => exact globMatchAux_nil_fail_mark_nil fold c s' p₁
        | cons d ms => exact absurd rfl (fun h => hnostar p₁ d ms h)
    rw [hfalse]
    have hext : ¬ ExtOK fold star := by
      cases star with
      | none => simp [ExtOK]
      | some pm =>
        obtain ⟨p₁, m⟩ := pm
        cases m with
        | nil => simp [ExtOK]
        | cons d ms => exact absurd rfl (fun h => hnostar p₁ d ms h)
    simp [hext, globNaive]

/-- The two-pointer loop agrees with the specification matcher. -/
theorem globMatchAux_eq_naive (fold : Char → Char) (hf : SlashFaithful fold)
    (p s : List Char) :
    globMatchAux fold p s none = globNaive fold p s := by
  have h := globMatchAux_eq_aux fold hf p s none trivial
  simp only [ExtOK, or_false] at h
  by_cases hb : globNaive fold p s = true
  · rw [hb, h.mpr hb]
  · have ha : globMatchAux fold p s none = false := by
      cases hx : globMatchAux fold p s none
      · rfl
      · exact absurd (h.mp hx) hb
    have hbf : globNaive fold p s = false := by
      cases hx : globNaive fold p s
      · rfl
      · exact absurd hx hb
    rw [ha, hbf]

theorem globFold_false : globFold false = id := rfl

theorem globFold_true : globFold true = Char.toLower := rfl

/-! ## Case folding commutes with matching -/

theorem noSlashSuffixes_map_toLower (s : List Char) :
    noSlashSuffixes (s.map Char.toLower) = (noSlashSuffixes s).map (List.map Char.toLower) := by
  induction s with
  | nil => rfl
  | cons c s ih =>
    simp only [List.map_cons, noSlashSuffixes]
    by_cases hc : c = '/'
    · subst hc
      rw [if_pos (by decide : Char.toLower '/' = '/'), if_pos rfl]
      rfl
    · rw [if_neg (fun h => hc ((toLower_eq_slash_iff c).mp h)), if_neg hc, ih]

theorem globNaive_toLower_map (p : List Char) :
    ∀ s, globNaive Char.toLower p s =
      globNaive id (p.map Char.toLower) (s.map Char.toLower) := by
  induction p with
  | nil =>
    intro s
    cases s <;> rfl
  | cons x p ih =>
    intro s
    by_cases hx : x = '*'
    · subst hx
      rw [List.map_cons, show Char.toLower '*' = '*' from by decide]
      rw [globNaive_star_any, globNaive_star_any, noSlashSuffixes_map_toLower,
        List.any_map]
      congr 1
      funext r
      exact ih r
    · have hx2 : ¬Char.toLower x = '*' := fun h => hx ((toLower_eq_star_iff x).mp h)
      cases s with
      | nil =>
        rw [globNaive_cons_nil Char.toLower hx, List.map_cons, List.map_nil,
          globNaive_cons_nil id hx2]
      | cons c s =>
        by_cases hq : x = '?'
        · subst hq
          rw [List.map_cons, List.map_cons, show Char.toLower '?' = '?' from by decide]
          rw [globNaive_quest_cons, globNaive_quest_cons, ih]
          by_cases hc : c = '/'
          · subst hc
            rw [show Char.toLower '/' = '/' from by decide]
          · have hc2 : ¬Char.toLower c = '/' := fun h => hc ((toLower_eq_slash_iff c).mp h)
            rw [show (decide (c ≠ '/')) = true from by simp [hc],
              show (decide (Char.toLower c ≠ '/')) = true from by simp [hc2]]
        · have hq2 : ¬Char.toLower x = '?' := fun h => hq ((toLower_eq_quest_iff x).mp h)
          rw [globNaive_lit_cons Char.toLower hx hq, List.map_cons, List.map_cons,
            globNaive_lit_cons id hx2 hq2, ih]
          simp only [id_eq]

/-! ## Step-count bound of the two-pointer loop -/

theorem globMatchSteps_nil (fold : Char → Char) (p : List Char)
    (star : Option (List Char × List Char)) :
    globMatchSteps fold p [] star = 1 := by
  unfold globMatchSteps
  rw [globMatchRun.eq_def]

theorem globMatchSteps_star_set (fold : Char → Char) (p' : List Char) (c : Char)
    (s' : List Char) (star : Option (List Char × List Char)) :
    globMatchSteps fold ('*' :: p') (c :: s') star =
      globMatchSteps fold p' (c :: s') (some (p', c :: s')) + 1 := by
  unfold globMatchSteps
  conv_lhs => rw [globMatchRun.eq_def]
  dsimp only
  rw [if_pos rfl]

theorem globMatchSteps_consume (fold : Char → Char) {x c : Char} (hx : ¬x = '*')
    (hcond : (x = '?' ∧ c ≠ '/') ∨ (x ≠ '?' ∧ fold x = fold c))
    (p' s' : List Char) (star : Option (List Char × List Char)) :
    globMatchSteps fold (x :: p') (c :: s') star = globMatchSteps fold p' s' star + 1 := by
  unfold globMatchSteps
  conv_lhs => rw [globMatchRun.eq_def]
  dsimp only
  rw [if_neg hx, if_pos hcond]

theorem globMatchSteps_backtrack (fold : Char → Char) {x c : Char} (hx : ¬x = '*')
    (hcond : ¬((x = '?' ∧ c ≠ '/') ∨ (x ≠ '?' ∧ fold x = fold c)))
    {d : Char} (hd : ¬d = '/') (p' s' p₁ ms : List Char) :
    globMatchSteps fold (x :: p') (c :: s') (some (p₁, d :: ms)) =
      globMatchSteps fold p₁ ms (some (p₁, ms)) + 1 := by
  unfold globMatchSteps
  conv_lhs => rw [globMatchRun.eq_def]
  dsimp only
  rw [if_neg hx, if_neg hcond, if_neg hd]

theorem globMatchSteps_backtrack_slash (fold : Char → Char) {x c : Char} (hx : ¬x = '*')
    (hcond : ¬((x = '?' ∧ c ≠ '/') ∨ (x ≠ '?' ∧ fold x = fold c)))
    (p' s' p₁ ms : List Char) :
    globMatchSteps fold (x :: p') (c :: s') (some (p₁, '/' :: ms)) = 1 := by
  unfold globMatchSteps
  conv_lhs => rw [globMatchRun.eq_def]
  dsimp only
  rw [if_neg hx, if_neg hcond, if_pos rfl]

theorem globMatchSteps_fail_none (fold : Char → Char) {x c : Char} (hx : ¬x = '*')
    (hcond : ¬((x = '?' ∧ c ≠ '/') ∨ (x ≠ '?' ∧ fold x = fold c)))
    (p' s' : List Char) :
    globMatchSteps fold (x :: p') (c :: s') none = 1 := by
  unfold globMatchSteps
  conv_lhs => rw [globMatchRun.eq_def]
  dsimp only
  rw [if_neg hx, if_neg hcond]

theorem globMatchSteps_fail_mark_nil (fold : Char → Char) {x c : Char} (hx : ¬x = '*')
    (hcond : ¬((x = '?' ∧ c ≠ '/') ∨ (x ≠ '?' ∧ fold x = fold c)))
    (p' s' p₁ : List Char) :
    globMatchSteps fold (x :: p') (c :: s') (some (p₁, [])) = 1 := by
  unfold globMatchSteps
  conv_lhs => rw [globMatchRun.eq_def]
  dsimp only
  rw [if_neg hx, if_neg hcond]

theorem globMatchSteps_nil_backtrack (fold : Char → Char) {d : Char} (hd : ¬d = '/')
    (c : Char) (s' p₁ ms : List Char) :
    globMatchSteps fold [] (c :: s') (some (p₁, d :: ms)) =
      globMatchSteps fold p₁ ms (some (p₁, ms)) + 1 := by
  unfold globMatchSteps
  conv_lhs => rw [globMatchRun.eq_def]
  dsimp only
  rw [if_neg hd]

theorem globMatchSteps_nil_backtrack_slash (fold : Char → Char)
    (c : Char) (s' p₁ ms : List Char) :
    globMatchSteps fold [] (c :: s') (some (p₁, '/' :: ms)) = 1 := by
  unfold globMatchSteps
  conv_lhs => rw [globMatchRun.eq_def]
  dsimp only
  rw [if_pos rfl]

theorem globMatchSteps_nil_fail_none (fold : Char → Char) (c : Char) (s' : List Char) :
    globMatchSteps fold [] (c :: s') none = 1 := by
  unfold globMatchSteps
  conv_lhs => rw [globMatchRun.eq_def]

theorem globMatchSteps_nil_fail_mark_nil (fold : Char → Char) (c : Char)
    (s' p₁ : List Char) :
    globMatchSteps fold [] (c :: s') (some (p₁, [])) = 1 := by
  unfold globMatchSteps
  conv_lhs => rw [globMatchRun.eq_def]

theorem globMatchSteps_le_aux (fold : Char → Char) (P0 : Nat) :
    ∀ (p s : List Char) (star : Option (List Char × List Char)),
      p.length ≤ P0 → (∀ p₁ m, star = some (p₁, m) → p₁.length ≤ P0) →
      globMatchSteps fold p s star ≤
        (max s.length (starMarkLen star) + 1) * (P0 + 1) + p.length := by
  intro p s star
  induction p, s, star using globMatchRun.induct fold with
  | case1 p star =>
    intro hp _
    have hpos : 0 < (max (List.length ([] : List Char)) (starMarkLen star) + 1) * (P0 + 1) :=
      Nat.mul_pos (by omega) (by omega)
    rw [globMatchSteps_nil]
    omega
  | case2 star c s' p' ih =>
    intro hp hstar
    rw [globMatchSteps_star_set]
    simp only [List.length_cons] at hp
    have hih := ih (by omega) (by
      rintro p₁ m hm
      cases hm
      omega)
    simp only [starMarkLen, List.length_cons] at hih
    simp only [List.length_cons]
    have hmono := Nat.mul_le_mul_right (P0 + 1)
      (show max (s'.length + 1) (s'.length + 1) + 1 ≤
        max (s'.length + 1) (starMarkLen star) + 1 by omega)
    omega
  | case3 star c s' x p' hx hcond ih =>
    intro hp hstar
    rw [globMatchSteps_consume fold hx hcond]
    simp only [List.length_cons] at hp
    have hih := ih (by omega) hstar
    simp only [List.length_cons]
    have hmono := Nat.mul_le_mul_right (P0 + 1)
      (show max s'.length (starMarkLen star) + 1 ≤
        max (s'.length + 1) (starMarkLen star) + 1 by omega)
    omega
  | case4 c s' x p' hx hcond p₁ ms =>
    intro hp _
    rw [globMatchSteps_backtrack_slash fold hx hcond]
    have hpos : 0 < (max (c :: s').length (starMarkLen (some (p₁, '/' :: ms))) + 1) * (P0 + 1) :=
      Nat.mul_pos (by omega) (by omega)
    omega
  | case5 c s' x p' hx hcond p₁ d ms hd ih =>
    intro hp hstar
    rw [globMatchSteps_backtrack fold hx hcond hd]
    have hp₁ : p₁.length ≤ P0 := hstar p₁ (d :: ms) rfl
    have hih := ih hp₁ (by
      rintro p₂ m hm
      cases hm
      exact hp₁)
    simp only [starMarkLen, List.length_cons] at hih ⊢
    have h1 : (ms.length + 2) * (P0 + 1) = (ms.length + 1) * (P0 + 1) + (P0 + 1) := by ring
    have h2 := Nat.mul_le_mul_right (P0 + 1)
      (show ms.length + 2 ≤ max (s'.length + 1) (ms.length + 1) + 1 by omega)
    have h3 : max ms.length ms.length = ms.length := by omega
    rw [h3] at hih
    omega
  | case6 star c s' x p' hx hcond hnostar =>
    intro hp _
    have hone : globMatchSteps fold (x :: p') (c :: s') star = 1 := by
      cases star with
      | none => exact globMatchSteps_fail_none fold hx hcond p' s'
      | some pm =>
        obtain ⟨p₁, m⟩ := pm
        cases m with
        | nil => exact globMatchSteps_fail_mark_nil fold hx hcond p' s' p₁
        | cons d ms => exact absurd rfl (fun h => hnostar p₁ d ms h)
    rw [hone]
    have hpos : 0 < (max (c :: s').length (starMarkLen star) + 1) * (P0 + 1) :=
      Nat.mul_pos (by omega) (by omega)
    omega
  | case7 c s' p₁ ms =>
    intro hp _
    rw [globMatchSteps_nil_backtrack_slash]
    have hpos : 0 < (max (c :: s').length (starMarkLen (some (p₁, '/' :: ms))) + 1) * (P0 + 1) :=
      Nat.mul_pos (by omega) (by omega)
    omega
  | case8 c s' p₁ d ms hd ih =>
    intro hp hstar
    rw [globMatchSteps_nil_backtrack fold hd]
    have hp₁ : p₁.length ≤ P0 := hstar p₁ (d :: ms) rfl
    have hih := ih hp₁ (by
      rintro p₂ m hm
      cases hm
      exact hp₁)
    simp only [starMarkLen, List.length_cons] at hih ⊢
    have h1 : (ms.length + 2) * (P0 + 1) = (ms.length + 1) * (P0 + 1) + (P0 + 1) := by ring
    have h2 := Nat.mul_le_mul_right (P0 + 1)
      (show ms.length + 2 ≤ max (s'.length + 1) (ms.length + 1) + 1 by omega)
    have h3 : max ms.length ms.length = ms.length := by omega
    rw [h3] at hih
    omega
  | case9 star c s' hnostar =>
    intro hp _
    have hone : globMatchSteps fold [] (c :: s') star = 1 := by
      cases star with
      | none => exact globMatchSteps_nil_fail_none fold c s'
      | some pm =>
        obtain ⟨p₁, m⟩ := pm
        cases m with
        | nil => exact globMatchSteps_nil_fail_mark_nil fold c s' p₁
        | cons d ms => exact absurd rfl (fun h => hnostar p₁ d ms h)
    rw [hone]
    have hpos : 0 < (max (c :: s').length (starMarkLen star) + 1) * (P0 + 1) :=
      Nat.mul_pos (by omega) (by omega)
    omega

theorem globMatchSteps_le (fold : Char → Char) (p s : List Char) :
    globMatchSteps fold p s none ≤ (s.length + 1) * (p.length + 1) + p.length := by
  have h := globMatchSteps_le_aux fold p.length p s none (le_refl _) (by rintro p₁ m ⟨⟩)
  simpa [starMarkLen] using h

/-! ## Claim C1: matcher correctness -/

/-- C1: Glob matcher correctness (case-sensitive mode): `matches(s, p)` is
true exactly when `s` is derivable from `p` by replacing each `?` with one
non-'/' character and each `*` with zero or more non-'/' characters,
anchored at both ends; and an absent (NULL) pattern always matches. -/
theorem C1_glob_matcher_correct :
    (∀ s p : String, SDL_GlobMatch (some p) s 0 = true ↔ GlobDerives p.toList s.toList)
    ∧ (∀ s : String, SDL_GlobMatch none s 0 = true) := by
  constructor
  · intro s p
    have he : SDL_GlobMatch (some p) s 0 = globMatchAux id p.toList s.toList none := rfl
    rw [he, globMatchAux_eq_naive id slashFaithful_id, globNaive_id_iff_derives]
  · intro s
    rfl

/-! ## Claim C6: case-insensitive mode -/

/-- C6: `matches("FILE.TXT", "file.txt")` is true with the case-insensitive
flag and false without it; in general, matching with the flag set is
matching after folding both pattern and candidate to lower case. -/
theorem C6_case_insensitive_mode :
    (SDL_GlobMatch (some "file.txt") "FILE.TXT" SDL_GLOB_CASEINSENSITIVE = true)
    ∧ (SDL_GlobMatch (some "file.txt") "FILE.TXT" 0 = false)
    ∧ (∀ p s : List Char, globMatches (some p) s true =
        globMatches (some (p.map Char.toLower)) (s.map Char.toLower) false) := by
  refine ⟨?_, ?_, ?_⟩
  · have he : SDL_GlobMatch (some "file.txt") "FILE.TXT" SDL_GLOB_CASEINSENSITIVE =
        globMatchAux Char.toLower "file.txt".toList "FILE.TXT".toList none := rfl
    rw [he, globMatchAux_eq_naive Char.toLower slashFaithful_toLower]
    decide
  · have he : SDL_GlobMatch (some "file.txt") "FILE.TXT" 0 =
        globMatchAux id "file.txt".toList "FILE.TXT".toList none := rfl
    rw [he, globMatchAux_eq_naive id slashFaithful_id]
    decide
  · intro p s
    show globMatchAux Char.toLower p s none =
      globMatchAux id (p.map Char.toLower) (s.map Char.toLower) none
    rw [globMatchAux_eq_naive Char.toLower slashFaithful_toLower,
      globMatchAux_eq_naive id slashFaithful_id]
    exact globNaive_toLower_map p s

/-! ## Claim C9: matcher complexity -/

/-- C9: the matcher is implemented as the two-pointer loop with a remembered
last-star position (`globMatchRun`), and for every candidate of length n and
pattern of length m the loop runs at most (n+1)(m+1)+m iterations — O(n·m),
not exponential. -/
theorem C9_matcher_complexity :
    (∀ (pattern name : String) (flags : Nat),
      SDL_GlobMatch (some pattern) name flags =
        (globMatchRun (globFold (flags.testBit 0)) pattern.toList name.toList none).1)
    ∧ (∀ (fold : Char → Char) (p s : List Char),
      globMatchSteps fold p s none ≤ (s.length + 1) * (p.length + 1) + p.length) := by
  constructor
  · intro pattern name flags
    rfl
  · intro fold p s
    exact globMatchSteps_le fold p s

/-! ## The callback enumerator (SDL_EnumerateDirectory)

The header documents the callback contract: return 1 to keep enumerating, 0
to stop with success, -1 to stop with an error, and the function calls the
callback "until all results have been provided or the callback returns
<= 0".  The callback receives the caller's userdata, modelled as a state
threaded through the loop. -/

inductive OpenErr where
  | NotFound
  | NotADirectory
  | PermissionDenied
deriving DecidableEq

inductive EnumResult where
  | success
  | openFailed (e : OpenErr)
  | callbackError (v : Int)
deriving DecidableEq

/-- Modelled from the spec: the per-entry loop of `SDL_EnumerateDirectory`
(implementation not in src/).  Returns the result, the entries passed to the
callback in order, and the final callback state. -/
def enumLoop {σ : Type} (path : String) (cb : σ → String → String → Int × σ) :
    σ → List String → EnumResult × List String × σ
  | st, [] => (.success, [], st)
  | st, e :: rest =>
    let r := cb st path e
    if 0 < r.1 then
      let k := enumLoop path cb r.2 rest
      (k.1, e :: k.2.1, k.2.2)
    else if r.1 = 0 then (.success, [e], r.2)
    else (.callbackError r.1, [e], r.2)

/-- Modelled from the spec: `SDL_EnumerateDirectory` (implementation not in
src/): open the directory; if opening fails no callback invocation occurs
and the error propagates; otherwise run the per-entry loop. -/
def enumerateDirectoryRun {σ : Type} (openResult : Except OpenErr (List String))
    (path : String) (cb : σ → String → String → Int × σ) (st : σ) :
    EnumResult × List String × σ :=
  match openResult with
  | .error e => (.openFailed e, [], st)
  | .ok entries => enumLoop path cb st entries

/-- The `int` return of `SDL_EnumerateDirectory`: 0 on success, a negative
error code on failure. -/
def enumResultCode : EnumResult → Int
  | .success => 0
  | .openFailed _ => -1
  | .callbackError _ => -1

/-- Modelled from the spec: the `int`-returning API entry point. -/
def SDL_EnumerateDirectory {σ : Type} (openResult : Except OpenErr (List String))
    (path : String) (cb : σ → String → String → Int × σ) (st : σ) : Int :=
  enumResultCode (enumerateDirectoryRun openResult path cb st).1

/-- A callback whose decision sequence is an arbitrary function of the visit
index, realized through the userdata state (a counter); this ranges over
every possible per-entry decision policy. -/
def enumWithDecisions (d : Nat → Int) (openResult : Except OpenErr (List String))
    (path : String) : EnumResult × List String × Nat :=
  enumerateDirectoryRun openResult path (fun n _ _ => (d n, n + 1)) 0

theorem enumLoop_stop (path : String) (d : Nat → Int) (k : Nat) :
    ∀ (entries : List String) (n : Nat),
      n ≤ k → k < n + entries.length →
      (∀ i, n ≤ i → i < k → 0 < d i) → d k ≤ 0 →
      enumLoop path (fun n _ _ => (d n, n + 1)) n entries =
        ((if d k = 0 then .success else .callbackError (d k)),
          entries.take (k - n + 1), k + 1) := by
  intro entries
  induction entries with
  | nil =>
    intro n h1 h2 _ _
    simp at h2
    omega
  | cons e rest ih =>
    intro n h1 h2 hcont hk
    by_cases hnk : n = k
    · subst hnk
      rw [enumLoop]
      simp only []
      rw [if_neg (by omega)]
      by_cases h0 : d n = 0
      · rw [if_pos h0, if_pos h0]
        simp [List.take]
      · rw [if_neg h0, if_neg h0]
        simp [List.take]
    · have hlt : n < k := by omega
      rw [enumLoop]
      simp only []
      rw [if_pos (hcont n (le_refl _) hlt)]
      rw [ih (n + 1) (by omega) (by simp at h2 ⊢; omega)
        (fun i hi1 hi2 => hcont i (by omega) hi2) hk]
      have ht : k - n + 1 = (k - (n + 1) + 1) + 1 := by omega
      rw [ht]
      simp [List.take]

theorem enumLoop_continue (path : String) (d : Nat → Int) :
    ∀ (entries : List String) (n : Nat),
      (∀ i, n ≤ i → i < n + entries.length → 0 < d i) →
      enumLoop path (fun n _ _ => (d n, n + 1)) n entries =
        (.success, entries, n + entries.length) := by
  intro entries
  induction entries with
  | nil =>
    intro n _
    simp [enumLoop]
  | cons e rest ih =>
    intro n hcont
    rw [enumLoop]
    simp only []
    rw [if_pos (hcont n (le_refl _) (by simp only [List.length_cons]; omega))]
    rw [ih (n + 1) (fun i hi1 hi2 => hcont i (by omega) (by simp only [List.length_cons]; omega))]
    simp only [List.length_cons]
    rw [show n + (rest.length + 1) = n + 1 + rest.length by omega]

/-! ## Claim C7: open-failure atomicity -/

/-- C7: for every failing open (NotFound, NotADirectory, PermissionDenied),
the enumeration invokes the callback zero times (no entry visited) and
propagates the open error as its own failure result. -/
theorem C7_open_failure_atomicity :
    ∀ {σ : Type} (e : OpenErr) (path : String)
      (cb : σ → String → String → Int × σ) (st : σ),
      (enumerateDirectoryRun (.error e) path cb st).1 = .openFailed e ∧
      (enumerateDirectoryRun (.error e) path cb st).2.1 = [] ∧
      (enumerateDirectoryRun (.error e) path cb st).2.2 = st ∧
      SDL_EnumerateDirectory (.error e) path cb st = -1 := by
  intro σ e path cb st
  exact ⟨rfl, rfl, rfl, rfl⟩

/-! ## Claim C10: callback value semantics -/

/-- C10: the enumeration decision is an integer: every positive return
continues, and for every v ≤ 0 (not only the documented 0 and -1) the loop
halts immediately after that entry, with v = 0 reported as success and every
negative v as a failure. -/
theorem C10_callback_value_semantics :
    ∀ (path : String) (entries : List String) (d : Nat → Int) (k : Nat),
      k < entries.length → (∀ i, i < k → 0 < d i) → d k ≤ 0 →
      (enumWithDecisions d (.ok entries) path).2.1 = entries.take (k + 1) ∧
      (enumWithDecisions d (.ok entries) path).1 =
        (if d k = 0 then .success else .callbackError (d k)) ∧
      SDL_EnumerateDirectory (.ok entries) path (fun n _ _ => (d n, n + 1)) 0 =
        (if d k = 0 then 0 else -1) := by
  intro path entries d k hk hcont hstop
  have h := enumLoop_stop path d k entries 0 (by omega) (by omega)
    (fun i _ hi => hcont i hi) hstop
  have hvis : (enumWithDecisions d (.ok entries) path).2.1 = entries.take (k + 1) := by
    simp only [enumWithDecisions, enumerateDirectoryRun]
    rw [h]
    simp
  have hres : (enumWithDecisions d (.ok entries) path).1 =
      (if d k = 0 then .success else .callbackError (d k)) := by
    simp only [enumWithDecisions, enumerateDirectoryRun]
    rw [h]
  refine ⟨hvis, hres, ?_⟩
  simp only [SDL_EnumerateDirectory, enumerateDirectoryRun]
  rw [h]
  by_cases h0 : d k = 0
  · rw [if_pos h0, if_pos h0]
    rfl
  · rw [if_neg h0, if_neg h0]
    rfl

/-- Closed witness for C10 at a concrete input: decisions -7 at the first
entry. -/
theorem C10_callback_value_semantics_witness :
    (enumWithDecisions (fun n => if n = 0 then -7 else 1) (.ok ["a", "b"]) "p").2.1 =
        ["a", "b"].take 1 ∧
      (enumWithDecisions (fun n => if n = 0 then -7 else 1) (.ok ["a", "b"]) "p").1 =
        .callbackError (-7) ∧
      SDL_EnumerateDirectory (.ok ["a", "b"]) "p"
        (fun n _ _ => ((if n = 0 then -7 else 1 : Int), n + 1)) 0 = -1 := by
  have h := C10_callback_value_semantics "p" ["a", "b"]
    (fun n => if n = 0 then -7 else 1) 0 (by decide) (by omega) (by decide)
  simpa using h

/-! ## The recursive directory walk

Directory trees are modelled with an `openable` flag per directory: an
unopenable directory is one whose `DirectoryReader.open` fails (permission
denied, vanished, ...); per the spec such a branch is skipped and the walk
continues with the siblings. -/

inductive FSTree where
  | file (name : String)
  | dir (name : String) (openable : Bool) (children : List FSTree)

def FSTree.name : FSTree → String
  | .file n => n
  | .dir n _ _ => n

inductive WalkOutcome where
  | completed
  | stoppedOk
  | stoppedErr
deriving DecidableEq

inductive FSEvent where
  | openDir (path : String)
  | closeDir (path : String)
deriving DecidableEq

structure WalkResult (σ : Type) where
  outcome : WalkOutcome
  visited : List String
  events : List FSEvent
  state : σ

/-- Modelled from the spec: the recursive walk that composes
CallbackEnumerator, DirectoryReader and recursion over subdirectories: each
entry is reported to the callback before its subtree; a Stop decision at any
level aborts the whole walk; a subdirectory whose open fails is skipped;
every opened handle is closed on every exit path. -/
def walkList {σ : Type} (cb : σ → String → String → Int × σ) :
    σ → String → List FSTree → WalkResult σ
  | st, _, [] => ⟨.completed, [], [], st⟩
  | st, dirname, t :: rest =>
    let r := cb st dirname t.name
    if 0 < r.1 then
      match t with
      | .file nm =>
        let k := walkList cb r.2 dirname rest
        ⟨k.outcome, nm :: k.visited, k.events, k.state⟩
      | .dir nm false _ =>
        let k := walkList cb r.2 dirname rest
        ⟨k.outcome, nm :: k.visited, k.events, k.state⟩
      | .dir nm true children =>
        let sub := walkList cb r.2 (dirname ++ "/" ++ nm) children
        match sub.outcome with
        | .completed =>
          let k := walkList cb sub.state dirname rest
          ⟨k.outcome, nm :: (sub.visited ++ k.visited),
           (FSEvent.openDir (dirname ++ "/" ++ nm) ::
             (sub.events ++ [FSEvent.closeDir (dirname ++ "/" ++ nm)])) ++ k.events,
           k.state⟩
        | outc =>
          ⟨outc, nm :: sub.visited,
           FSEvent.openDir (dirname ++ "/" ++ nm) ::
             (sub.events ++ [FSEvent.closeDir (dirname ++ "/" ++ nm)]),
           sub.state⟩
    else if r.1 = 0 then ⟨.stoppedOk, [t.name], [], r.2⟩
    else ⟨.stoppedErr, [t.name], [], r.2⟩

/-- Modelled from the spec: the walk from the root: a failure to open the
root is fatal (no callback invocation); the root handle is also released on
every path. -/
def walkRoot {σ : Type} (cb : σ → String → String → Int × σ) (st : σ)
    (root : String) (openable : Bool) (ts : List FSTree) : WalkResult σ :=
  if openable then
    let k := walkList cb st root ts
    ⟨k.outcome, k.visited, FSEvent.openDir root :: (k.events ++ [FSEvent.closeDir root]),
      k.state⟩
  else ⟨.stoppedErr, [], [], st⟩

/-- The entries a full walk (no early stop) reports, in visiting order. -/
def fullVisit : List FSTree → List String
  | [] => []
  | t :: rest =>
    match t with
    | .file n => n :: fullVisit rest
    | .dir n false _ => n :: fullVisit rest
    | .dir n true children => n :: (fullVisit children ++ fullVisit rest)

/-- Stack simulation of the open/close event trace: `some stk` means the
trace is well-nested relative to the incoming stack of open handles. -/
def netOpen : List FSEvent → List String → Option (List String)
  | [], stk => some stk
  | .openDir p :: es, stk => netOpen es (p :: stk)
  | .closeDir p :: es, stk =>
    match stk with
    | q :: stk2 => if p = q then netOpen es stk2 else none
    | [] => none

theorem netOpen_append (a : List FSEvent) :
    ∀ (b : List FSEvent) (stk : List String),
      netOpen (a ++ b) stk =
        match netOpen a stk with
        | some stk2 => netOpen b stk2
        | none => none := by
  induction a with
  | nil => intro b stk; rfl
  | cons e a ih =>
    intro b stk
    cases e with
    | openDir p =>
      rw [List.cons_append, netOpen, netOpen, ih]
    | closeDir p =>
      cases stk with
      | nil => rfl
      | cons q stk2 =>
        rw [List.cons_append, netOpen, netOpen]
        by_cases hpq : p = q
        · rw [if_pos hpq, if_pos hpq, ih]
        · rw [if_neg hpq, if_neg hpq]

theorem walkList_nil {σ : Type} (cb : σ → String → String → Int × σ) (st : σ)
    (dirname : String) :
    walkList cb st dirname [] = ⟨.completed, [], [], st⟩ := by
  rw [walkList.eq_def]

theorem walkList_file {σ : Type} (cb : σ → String → String → Int × σ) (st : σ)
    (dirname nm : String) (rest : List FSTree) (hr : 0 < (cb st dirname nm).1) :
    walkList cb st dirname (.file nm :: rest) =
      ⟨(walkList cb (cb st dirname nm).2 dirname rest).outcome,
       nm :: (walkList cb (cb st dirname nm).2 dirname rest).visited,
       (walkList cb (cb st dirname nm).2 dirname rest).events,
       (walkList cb (cb st dirname nm).2 dirname rest).state⟩ := by
  rw [walkList.eq_def]
  dsimp only [FSTree.name]
  rw [if_pos hr]

theorem walkList_dir_skip {σ : Type} (cb : σ → String → String → Int × σ) (st : σ)
    (dirname nm : String) (children rest : List FSTree)
    (hr : 0 < (cb st dirname nm).1) :
    walkList cb st dirname (.dir nm false children :: rest) =
      ⟨(walkList cb (cb st dirname nm).2 dirname rest).outcome,
       nm :: (walkList cb (cb st dirname nm).2 dirname rest).visited,
       (walkList cb (cb st dirname nm).2 dirname rest).events,
       (walkList cb (cb st dirname nm).2 dirname rest).state⟩ := by
  rw [walkList.eq_def]
  dsimp only [FSTree.name]
  rw [if_pos hr]

theorem walkList_dir_completed {σ : Type} (cb : σ → String → String → Int × σ) (st : σ)
    (dirname nm : String) (children rest : List FSTree)
    (hr : 0 < (cb st dirname nm).1)
    (hc : (walkList cb (cb st dirname nm).2 (dirname ++ "/" ++ nm) children).outcome =
      .completed) :
    walkList cb st dirname (.dir nm true children :: rest) =
      (let sub := walkList cb (cb st dirname nm).2 (dirname ++ "/" ++ nm) children
       let k := walkList cb sub.state dirname rest
       ⟨k.outcome, nm :: (sub.visited ++ k.visited),
        (FSEvent.openDir (dirname ++ "/" ++ nm) ::
          (sub.events ++ [FSEvent.closeDir (dirname ++ "/" ++ nm)])) ++ k.events,
        k.state⟩) := by
  rw [walkList.eq_def]
  dsimp only [FSTree.name]
  rw [if_pos hr, hc]

theorem walkList_dir_stopped {σ : Type} (cb : σ → String → String → Int × σ) (st : σ)
    (dirname nm : String) (children rest : List FSTree)
    (hr : 0 < (cb st dirname nm).1) (oc : WalkOutcome)
    (hoc : (walkList cb (cb st dirname nm).2 (dirname ++ "/" ++ nm) children).outcome = oc)
    (hne : oc ≠ .completed) :
    walkList cb st dirname (.dir nm true children :: rest) =
      (let sub := walkList cb (cb st dirname nm).2 (dirname ++ "/" ++ nm) children
       ⟨oc, nm :: sub.visited,
        FSEvent.openDir (dirname ++ "/" ++ nm) ::
          (sub.events ++ [FSEvent.closeDir (dirname ++ "/" ++ nm)]),
        sub.state⟩) := by
  rw [walkList.eq_def]
  dsimp only [FSTree.name]
  rw [if_pos hr, hoc]
  cases oc with
  | completed => exact absurd rfl hne
  | stoppedOk => rfl
  | stoppedErr => rfl

theorem walkList_stop_ok {σ : Type} (cb : σ → String → String → Int × σ) (st : σ)
    (dirname : String) (t : FSTree) (rest : List FSTree)
    (hr : ¬0 < (cb st dirname t.name).1) (h0 : (cb st dirname t.name).1 = 0) :
    walkList cb st dirname (t :: rest) =
      ⟨.stoppedOk, [t.name], [], (cb st dirname t.name).2⟩ := by
  rw [walkList.eq_def]
  cases t with
  | file nm =>
    dsimp only [FSTree.name] at hr h0 ⊢
    rw [if_neg hr, if_pos h0]
  | dir nm op children =>
    dsimp only [FSTree.name] at hr h0 ⊢
    rw [if_neg hr, if_pos h0]

theorem walkList_stop_err {σ : Type} (cb : σ → String → String → Int × σ) (st : σ)
    (dirname : String) (t : FSTree) (rest : List FSTree)
    (hr : ¬0 < (cb st dirname t.name).1) (h0 : ¬(cb st dirname t.name).1 = 0) :
    walkList cb st dirname (t :: rest) =
      ⟨.stoppedErr, [t.name], [], (cb st dirname t.name).2⟩ := by
  rw [walkList.eq_def]
  cases t with
  | file nm =>
    dsimp only [FSTree.name] at hr h0 ⊢
    rw [if_neg hr, if_neg h0]
  | dir nm op children =>
    dsimp only [FSTree.name] at hr h0 ⊢
    rw [if_neg hr, if_neg h0]

theorem netOpen_block (p : String) (inner : List FSEvent) (stk : List String)
    (h : netOpen inner (p :: stk) = some (p :: stk)) :
    netOpen (FSEvent.openDir p :: (inner ++ [FSEvent.closeDir p])) stk = some stk := by
  rw [netOpen, netOpen_append, h]
  dsimp only
  rw [netOpen, if_pos rfl]
  rfl

/-- Every walk leaves the handle stack exactly as it found it. -/
theorem walkList_netOpen {σ : Type} (cb : σ → String → String → Int × σ) :
    ∀ (st : σ) (dirname : String) (ts : List FSTree) (stk : List String),
      netOpen (walkList cb st dirname ts).events stk = some stk := by
  intro st dirname ts
  induction st, dirname, ts using walkList.induct cb with
  | case1 st dirname =>
    intro stk
    rw [walkList_nil]
    rfl
  | case2 st dirname rest nm r hr ih =>
    intro stk
    rw [walkList_file cb st dirname nm rest hr]
    exact ih stk
  | case3 st dirname rest nm children r hr ih =>
    intro stk
    rw [walkList_dir_skip cb st dirname nm children rest hr]
    exact ih stk
  | case4 st dirname rest nm children r hr sub hc ih1 ih2 ih3 =>
    intro stk
    rw [walkList_dir_completed cb st dirname nm children rest hr hc]
    dsimp only
    have ih1a : netOpen (walkList cb (cb st dirname nm).2 (dirname ++ "/" ++ nm)
        children).events ((dirname ++ "/" ++ nm) :: stk) =
        some ((dirname ++ "/" ++ nm) :: stk) := ih1 _
    rw [netOpen_append, netOpen_block _ _ _ ih1a]
    dsimp only
    exact ih3 stk
  | case5 st dirname rest nm children r hr sub hnc ih =>
    intro stk
    have hoc := walkList_dir_stopped cb st dirname nm children rest hr
      (walkList cb (cb st dirname nm).2 (dirname ++ "/" ++ nm) children).outcome rfl
      (fun h => hnc h)
    rw [hoc]
    dsimp only
    have iha : netOpen (walkList cb (cb st dirname nm).2 (dirname ++ "/" ++ nm)
        children).events ((dirname ++ "/" ++ nm) :: stk) =
        some ((dirname ++ "/" ++ nm) :: stk) := ih _
    exact netOpen_block _ _ _ iha
  | case6 st dirname t rest r hr h0 =>
    intro stk
    rw [walkList_stop_ok cb st dirname t rest hr h0]
    rfl
  | case7 st dirname t rest r hr h0 =>
    intro stk
    rw [walkList_stop_err cb st dirname t rest hr h0]
    rfl

theorem walkRoot_netOpen {σ : Type} (cb : σ → String → String → Int × σ) (st : σ)
    (root : String) (openable : Bool) (ts : List FSTree) (stk : List String) :
    netOpen (walkRoot cb st root openable ts).events stk = some stk := by
  unfold walkRoot
  cases openable with
  | false => rfl
  | true =>
    dsimp only [if_true]
    exact netOpen_block _ _ _ (walkList_netOpen cb st root ts _)

/-! ## Characterizing the walk under an arbitrary decision sequence -/

theorem walkList_continue (d : Nat → Int) :
    ∀ (n : Nat) (dirname : String) (ts : List FSTree),
      (∀ i, n ≤ i → i < n + (fullVisit ts).length → 0 < d i) →
      (walkList (fun k _ _ => (d k, k + 1)) n dirname ts).outcome = .completed ∧
      (walkList (fun k _ _ => (d k, k + 1)) n dirname ts).visited = fullVisit ts ∧
      (walkList (fun k _ _ => (d k, k + 1)) n dirname ts).state =
        n + (fullVisit ts).length := by
  intro n dirname ts
  induction n, dirname, ts using walkList.induct (fun k _ _ => (d k, k + 1)) with
  | case1 st dirname =>
    intro _
    rw [walkList_nil]
    exact ⟨rfl, by simp [fullVisit], by simp [fullVisit]⟩
  | case2 st dirname rest nm r hr ih =>
    intro hyp
    have hr2 : r.2 = st + 1 := rfl
    have hlen : (fullVisit (FSTree.file nm :: rest)).length =
        (fullVisit rest).length + 1 := by
      simp [fullVisit]
    obtain ⟨h1, h2, h3⟩ := ih (fun i hi1 hi2 => hyp i (by omega) (by omega))
    rw [walkList_file _ st dirname nm rest hr]
    refine ⟨h1, ?_, ?_⟩
    · show nm :: _ = fullVisit (FSTree.file nm :: rest)
      simp only [fullVisit]
      exact congrArg (List.cons nm) h2
    · show (walkList _ ((st : Nat) + 1) dirname rest).state = _
      have h3a : (walkList (fun k _ _ => (d k, k + 1)) (st + 1) dirname rest).state =
          st + 1 + (fullVisit rest).length := h3
      rw [h3a, hlen]
      omega
  | case3 st dirname rest nm children r hr ih =>
    intro hyp
    have hr2 : r.2 = st + 1 := rfl
    have hlen : (fullVisit (FSTree.dir nm false children :: rest)).length =
        (fullVisit rest).length + 1 := by
      simp [fullVisit]
    obtain ⟨h1, h2, h3⟩ := ih (fun i hi1 hi2 => hyp i (by omega) (by omega))
    rw [walkList_dir_skip _ st dirname nm children rest hr]
    refine ⟨h1, ?_, ?_⟩
    · show nm :: _ = fullVisit (FSTree.dir nm false children :: rest)
      simp only [fullVisit]
      exact congrArg (List.cons nm) h2
    · show (walkList _ ((st : Nat) + 1) dirname rest).state = _
      have h3a : (walkList (fun k _ _ => (d k, k + 1)) (st + 1) dirname rest).state =
          st + 1 + (fullVisit rest).length := h3
      rw [h3a, hlen]
      omega
  | case4 st dirname rest nm children r hr sub hc ih1 ih2 ih3 =>
    intro hyp
    have hr2 : r.2 = st + 1 := rfl
    have hlen : (fullVisit (FSTree.dir nm true children :: rest)).length =
        (fullVisit children).length + (fullVisit rest).length + 1 := by
      simp [fullVisit]
    obtain ⟨g1, g2, g3⟩ := ih1 (fun i hi1 hi2 => hyp i (by omega) (by omega))
    have g3a : (walkList (fun k _ _ => (d k, k + 1)) (st + 1) (dirname ++ "/" ++ nm)
        children).state = st + 1 + (fullVisit children).length := g3
    obtain ⟨h1, h2, h3⟩ := ih3 (fun i hi1 hi2 => by
      rw [g3a] at hi1 hi2
      exact hyp i (by omega) (by omega))
    rw [walkList_dir_completed _ st dirname nm children rest hr hc]
    dsimp only
    refine ⟨h1, ?_, ?_⟩
    · show nm :: (_ ++ _) = fullVisit (FSTree.dir nm true children :: rest)
      simp only [fullVisit]
      have g2a : (walkList (fun k _ _ => (d k, k + 1)) (st + 1) (dirname ++ "/" ++ nm)
          children).visited = fullVisit children := g2
      rw [g2a, h2]
    · have h3a : (walkList (fun k _ _ => (d k, k + 1))
          (walkList (fun k _ _ => (d k, k + 1)) (st + 1) (dirname ++ "/" ++ nm)
            children).state dirname rest).state =
          (walkList (fun k _ _ => (d k, k + 1)) (st + 1) (dirname ++ "/" ++ nm)
            children).state + (fullVisit rest).length := h3
      show (walkList _ _ dirname rest).state = _
      rw [h3a, g3a, hlen]
      omega
  | case5 st dirname rest nm children r hr sub hnc ih =>
    intro hyp
    have hr2 : r.2 = st + 1 := rfl
    have hlen : (fullVisit (FSTree.dir nm true children :: rest)).length =
        (fullVisit children).length + (fullVisit rest).length + 1 := by
      simp [fullVisit]
    exfalso
    obtain ⟨g1, _, _⟩ := ih (fun i hi1 hi2 => hyp i (by omega) (by omega))
    exact hnc g1
  | case6 st dirname t rest r hr h0 =>
    intro hyp
    exfalso
    have hlen1 : 0 < (fullVisit (t :: rest)).length := by
      rcases t with nm | ⟨nm, op, ch⟩
      · simp [fullVisit]
      · cases op <;> simp [fullVisit]
    have hpos : 0 < d st := hyp st (le_refl _) (by omega)
    exact hr hpos
  | case7 st dirname t rest r hr h0 =>
    intro hyp
    exfalso
    have hlen1 : 0 < (fullVisit (t :: rest)).length := by
      rcases t with nm | ⟨nm, op, ch⟩
      · simp [fullVisit]
      · cases op <;> simp [fullVisit]
    have hpos : 0 < d st := hyp st (le_refl _) (by omega)
    exact hr hpos

theorem walkList_stop (d : Nat → Int) (k : Nat) (hk : d k ≤ 0) :
    ∀ (n : Nat) (dirname : String) (ts : List FSTree),
      n ≤ k → k < n + (fullVisit ts).length →
      (∀ i, n ≤ i → i < k → 0 < d i) →
      (walkList (fun j _ _ => (d j, j + 1)) n dirname ts).outcome =
        (if d k = 0 then .stoppedOk else .stoppedErr) ∧
      (walkList (fun j _ _ => (d j, j + 1)) n dirname ts).visited =
        (fullVisit ts).take (k - n + 1) ∧
      (walkList (fun j _ _ => (d j, j + 1)) n dirname ts).state = k + 1 := by
  intro n dirname ts
  induction n, dirname, ts using walkList.induct (fun j _ _ => (d j, j + 1)) with
  | case1 st dirname =>
    intro h1 h2 _
    simp only [fullVisit, List.length_nil] at h2
    omega
  | case2 st dirname rest nm r hr ih =>
    intro h1 h2 hcont
    have hr1 : r.1 = d st := rfl
    have hr2 : r.2 = st + 1 := rfl
    have hlen : (fullVisit (FSTree.file nm :: rest)).length =
        (fullVisit rest).length + 1 := by
      simp [fullVisit]
    have hne : st < k := by
      rcases Nat.lt_or_ge st k with h | h
      · exact h
      · have : st = k := by omega
        subst this
        exact absurd hr (by omega)
    obtain ⟨g1, g2, g3⟩ := ih (by omega) (by omega)
      (fun i hi1 hi2 => hcont i (by omega) hi2)
    rw [walkList_file _ st dirname nm rest hr]
    refine ⟨g1, ?_, ?_⟩
    · show nm :: _ = _
      have g2a : (walkList (fun j _ _ => (d j, j + 1)) (st + 1) dirname rest).visited =
          (fullVisit rest).take (k - (st + 1) + 1) := g2
      rw [g2a]
      simp only [fullVisit]
      rw [show k - st + 1 = (k - (st + 1) + 1) + 1 by omega, List.take_succ_cons]
    · exact g3
  | case3 st dirname rest nm children r hr ih =>
    intro h1 h2 hcont
    have hr1 : r.1 = d st := rfl
    have hr2 : r.2 = st + 1 := rfl
    have hlen : (fullVisit (FSTree.dir nm false children :: rest)).length =
        (fullVisit rest).length + 1 := by
      simp [fullVisit]
    have hne : st < k := by
      rcases Nat.lt_or_ge st k with h | h
      · exact h
      · have : st = k := by omega
        subst this
        exact absurd hr (by omega)
    obtain ⟨g1, g2, g3⟩ := ih (by omega) (by omega)
      (fun i hi1 hi2 => hcont i (by omega) hi2)
    rw [walkList_dir_skip _ st dirname nm children rest hr]
    refine ⟨g1, ?_, ?_⟩
    · show nm :: _ = _
      have g2a : (walkList (fun j _ _ => (d j, j + 1)) (st + 1) dirname rest).visited =
          (fullVisit rest).take (k - (st + 1) + 1) := g2
      rw [g2a]
      simp only [fullVisit]
      rw [show k - st + 1 = (k - (st + 1) + 1) + 1 by omega, List.take_succ_cons]
    · exact g3
  | case4 st dirname rest nm children r hr sub hc ih1 ih2 ih3 =>
    intro h1 h2 hcont
    have hr1 : r.1 = d st := rfl
    have hr2 : r.2 = st + 1 := rfl
    have hlen : (fullVisit (FSTree.dir nm true children :: rest)).length =
        (fullVisit children).length + (fullVisit rest).length + 1 := by
      simp [fullVisit]
    have hne : st < k := by
      rcases Nat.lt_or_ge st k with h | h
      · exact h
      · have : st = k := by omega
        subst this
        exact absurd hr (by omega)
    by_cases hkc : k < st + 1 + (fullVisit children).length
    · exfalso
      obtain ⟨g1, -, -⟩ := ih1 (by omega) (by omega)
        (fun i hi1 hi2 => hcont i (by omega) hi2)
      rw [hc] at g1
      by_cases h0 : d k = 0
      · rw [if_pos h0] at g1
        exact WalkOutcome.noConfusion g1
      · rw [if_neg h0] at g1
        exact WalkOutcome.noConfusion g1
    · obtain ⟨q1, q2, q3⟩ := walkList_continue d (st + 1) (dirname ++ "/" ++ nm) children
        (fun i hi1 hi2 => hcont i (by omega) (by omega))
      have q3a : (walkList (fun j _ _ => (d j, j + 1)) (st + 1) (dirname ++ "/" ++ nm)
          children).state = st + 1 + (fullVisit children).length := q3
      have ih3a : (walkList (fun j _ _ => (d j, j + 1)) (st + 1) (dirname ++ "/" ++ nm)
            children).state ≤ k →
          k < (walkList (fun j _ _ => (d j, j + 1)) (st + 1) (dirname ++ "/" ++ nm)
            children).state + (fullVisit rest).length →
          (∀ i, (walkList (fun j _ _ => (d j, j + 1)) (st + 1) (dirname ++ "/" ++ nm)
            children).state ≤ i → i < k → 0 < d i) →
          (walkList (fun j _ _ => (d j, j + 1))
            (walkList (fun j _ _ => (d j, j + 1)) (st + 1) (dirname ++ "/" ++ nm)
              children).state dirname rest).outcome =
            (if d k = 0 then WalkOutcome.stoppedOk else WalkOutcome.stoppedErr) ∧
          (walkList (fun j _ _ => (d j, j + 1))
            (walkList (fun j _ _ => (d j, j + 1)) (st + 1) (dirname ++ "/" ++ nm)
              children).state dirname rest).visited =
            (fullVisit rest).take (k - (walkList (fun j _ _ => (d j, j + 1)) (st + 1)
              (dirname ++ "/" ++ nm) children).state + 1) ∧
          (walkList (fun j _ _ => (d j, j + 1))
            (walkList (fun j _ _ => (d j, j + 1)) (st + 1) (dirname ++ "/" ++ nm)
              children).state dirname rest).state = k + 1 := ih3
      obtain ⟨g1, g2, g3⟩ := ih3a (by rw [q3a]; omega) (by rw [q3a]; omega)
        (fun i hi1 hi2 => hcont i (by rw [q3a] at hi1; omega) hi2)
      rw [q3a] at g2
      rw [walkList_dir_completed _ st dirname nm children rest hr hc]
      dsimp only
      refine ⟨g1, ?_, ?_⟩
      · show nm :: (_ ++ _) = _
        have q2a : (walkList (fun j _ _ => (d j, j + 1)) (st + 1) (dirname ++ "/" ++ nm)
            children).visited = fullVisit children := q2
        rw [q3a, q2a, g2]
        simp only [fullVisit]
        rw [show k - st + 1 = (k - st) + 1 by omega, List.take_succ_cons,
          List.take_append_eq_append_take,
          List.take_of_length_le (by omega : (fullVisit children).length ≤ k - st)]
        rw [show k - (st + 1 + (fullVisit children).length) + 1 =
          k - st - (fullVisit children).length from by omega]
      · exact g3
  | case5 st dirname rest nm children r hr sub hnc ih =>
    intro h1 h2 hcont
    have hr1 : r.1 = d st := rfl
    have hr2 : r.2 = st + 1 := rfl
    have hlen : (fullVisit (FSTree.dir nm true children :: rest)).length =
        (fullVisit children).length + (fullVisit rest).length + 1 := by
      simp [fullVisit]
    have hne : st < k := by
      rcases Nat.lt_or_ge st k with h | h
      · exact h
      · have : st = k := by omega
        subst this
        exact absurd hr (by omega)
    by_cases hkc : k < st + 1 + (fullVisit children).length
    · obtain ⟨g1, g2, g3⟩ := ih (by omega) (by omega)
        (fun i hi1 hi2 => hcont i (by omega) hi2)
      have hoc := walkList_dir_stopped _ st dirname nm children rest hr
        (if d k = 0 then WalkOutcome.stoppedOk else WalkOutcome.stoppedErr) g1
        (by by_cases h0 : d k = 0
            · rw [if_pos h0]
              exact fun hcontra => WalkOutcome.noConfusion hcontra
            · rw [if_neg h0]
              exact fun hcontra => WalkOutcome.noConfusion hcontra)
      rw [hoc]
      dsimp only
      refine ⟨rfl, ?_, ?_⟩
      · show nm :: _ = _
        have g2a : (walkList (fun j _ _ => (d j, j + 1)) (st + 1) (dirname ++ "/" ++ nm)
            children).visited = (fullVisit children).take (k - (st + 1) + 1) := g2
        rw [g2a]
        simp only [fullVisit]
        rw [show k - st + 1 = (k - (st + 1) + 1) + 1 by omega, List.take_succ_cons,
          List.take_append_of_le_length (by omega)]
      · exact g3
    · exfalso
      obtain ⟨q1, -, -⟩ := walkList_continue d (st + 1) (dirname ++ "/" ++ nm) children
        (fun i hi1 hi2 => hcont i (by omega) (by omega))
      exact hnc q1
  | case6 st dirname t rest r hr h0 =>
    intro h1 h2 hcont
    have hr1 : r.1 = d st := rfl
    have hr2 : r.2 = st + 1 := rfl
    have hke : k = st := by
      rcases Nat.lt_or_ge st k with h | h
      · exact absurd (hcont st (le_refl _) h) (by omega)
      · omega
    rw [walkList_stop_ok _ st dirname t rest hr h0]
    refine ⟨?_, ?_, ?_⟩
    · show WalkOutcome.stoppedOk = _
      rw [if_pos (show d k = 0 by rw [hke]; omega)]
    · show [t.name] = _
      rw [show k - st + 1 = 1 by omega]
      rcases t with nm | ⟨nm, op, ch⟩
      · simp [fullVisit, FSTree.name]
      · cases op <;> simp [fullVisit, FSTree.name]
    · show r.2 = k + 1
      omega
  | case7 st dirname t rest r hr h0 =>
    intro h1 h2 hcont
    have hr1 : r.1 = d st := rfl
    have hr2 : r.2 = st + 1 := rfl
    have hke : k = st := by
      rcases Nat.lt_or_ge st k with h | h
      · exact absurd (hcont st (le_refl _) h) (by omega)
      · omega
    rw [walkList_stop_err _ st dirname t rest hr h0]
    refine ⟨?_, ?_, ?_⟩
    · show WalkOutcome.stoppedErr = _
      rw [if_neg (show ¬d k = 0 by rw [hke]; omega)]
    · show [t.name] = _
      rw [show k - st + 1 = 1 by omega]
      rcases t with nm | ⟨nm, op, ch⟩
      · simp [fullVisit, FSTree.name]
      · cases op <;> simp [fullVisit, FSTree.name]
    · show r.2 = k + 1
      omega

/-! ## The glob walker (SDL_GlobDirectory) -/

/-- Relative paths are '/'-joined from the walk root. -/
def joinRel (pre nm : String) : String :=
  if pre = "" then nm else pre ++ "/" ++ nm

/-- Modelled from the spec: GlobWalker (implementation not in src/): walks
the tree depth-first; each entry's '/'-joined relative path is tested
against the pattern and appended to the results on a match; a matching
directory is still recursed into; a subdirectory that fails to open is
skipped (the walk continues with its siblings); every opened handle is
closed.  Returns the result list and the open/close event trace. -/
def globWalkList (pattern : Option (List Char)) (ci : Bool) (pre : String) :
    List FSTree → List String × List FSEvent
  | [] => ([], [])
  | t :: rest =>
    let rel := joinRel pre t.name
    let self : List String := if globMatches pattern rel.toList ci then [rel] else []
    match t with
    | .file _ =>
      let k := globWalkList pattern ci pre rest
      (self ++ k.1, k.2)
    | .dir _ false _ =>
      let k := globWalkList pattern ci pre rest
      (self ++ k.1, k.2)
    | .dir _ true children =>
      let sub := globWalkList pattern ci rel children
      let k := globWalkList pattern ci pre rest
      (self ++ (sub.1 ++ k.1),
       (FSEvent.openDir rel :: (sub.2 ++ [FSEvent.closeDir rel])) ++ k.2)

/-- The reachable directory entries of a walk, as accumulated relative
paths (entries below an unopenable directory are not reachable; the
unopenable directory itself, listed by its parent, is). -/
def relPaths (pre : String) : List FSTree → List String
  | [] => []
  | t :: rest =>
    let rel := joinRel pre t.name
    match t with
    | .file _ => rel :: relPaths pre rest
    | .dir _ false _ => rel :: relPaths pre rest
    | .dir _ true children => rel :: (relPaths rel children ++ relPaths pre rest)

theorem relPaths_nil (pre : String) : relPaths pre [] = [] := by
  rw [relPaths.eq_def]

theorem relPaths_file (pre nm : String) (rest : List FSTree) :
    relPaths pre (.file nm :: rest) = joinRel pre nm :: relPaths pre rest := by
  rw [relPaths.eq_def]
  dsimp only [FSTree.name]

theorem relPaths_dir_skip (pre nm : String) (children rest : List FSTree) :
    relPaths pre (.dir nm false children :: rest) =
      joinRel pre nm :: relPaths pre rest := by
  rw [relPaths.eq_def]
  dsimp only [FSTree.name]

theorem relPaths_dir (pre nm : String) (children rest : List FSTree) :
    relPaths pre (.dir nm true children :: rest) =
      joinRel pre nm ::
        (relPaths (joinRel pre nm) children ++ relPaths pre rest) := by
  rw [relPaths.eq_def]
  dsimp only [FSTree.name]

theorem globWalkList_nil (pattern : Option (List Char)) (ci : Bool) (pre : String) :
    globWalkList pattern ci pre [] = ([], []) := by
  rw [globWalkList.eq_def]

theorem globWalkList_file (pattern : Option (List Char)) (ci : Bool) (pre nm : String)
    (rest : List FSTree) :
    globWalkList pattern ci pre (.file nm :: rest) =
      ((if globMatches pattern (joinRel pre nm).toList ci then [joinRel pre nm] else []) ++
        (globWalkList pattern ci pre rest).1,
       (globWalkList pattern ci pre rest).2) := by
  rw [globWalkList.eq_def]
  dsimp only [FSTree.name]

theorem globWalkList_dir_skip (pattern : Option (List Char)) (ci : Bool)
    (pre nm : String) (children rest : List FSTree) :
    globWalkList pattern ci pre (.dir nm false children :: rest) =
      ((if globMatches pattern (joinRel pre nm).toList ci then [joinRel pre nm] else []) ++
        (globWalkList pattern ci pre rest).1,
       (globWalkList pattern ci pre rest).2) := by
  rw [globWalkList.eq_def]
  dsimp only [FSTree.name]

theorem globWalkList_dir (pattern : Option (List Char)) (ci : Bool)
    (pre nm : String) (children rest : List FSTree) :
    globWalkList pattern ci pre (.dir nm true children :: rest) =
      ((if globMatches pattern (joinRel pre nm).toList ci then [joinRel pre nm] else []) ++
        ((globWalkList pattern ci (joinRel pre nm) children).1 ++
          (globWalkList pattern ci pre rest).1),
       (FSEvent.openDir (joinRel pre nm) ::
         ((globWalkList pattern ci (joinRel pre nm) children).2 ++
           [FSEvent.closeDir (joinRel pre nm)])) ++
         (globWalkList pattern ci pre rest).2) := by
  rw [globWalkList.eq_def]
  dsimp only [FSTree.name]

/-- Result membership of the glob walk: exactly the reachable entries whose
relative path matches the pattern. -/
theorem globWalkList_mem (pattern : Option (List Char)) (ci : Bool) :
    ∀ (pre : String) (ts : List FSTree) (r : String),
      r ∈ (globWalkList pattern ci pre ts).1 ↔
        (r ∈ relPaths pre ts ∧ globMatches pattern r.toList ci = true) := by
  intro pre ts
  induction pre, ts using globWalkList.induct pattern ci with
  | case1 pre =>
    intro r
    rw [globWalkList_nil, relPaths_nil]
    simp
  | case2 pre rest nm ih =>
    intro r
    rw [globWalkList_file, relPaths_file]
    simp only [List.mem_append, List.mem_cons, ih r]
    by_cases hm : globMatches pattern (joinRel pre nm).toList ci = true
    · rw [if_pos hm]
      simp only [List.mem_singleton]
      constructor
      · rintro (rfl | ⟨hr, hmr⟩)
        · exact ⟨Or.inl rfl, hm⟩
        · exact ⟨Or.inr hr, hmr⟩
      · rintro ⟨rfl | hr, hmr⟩
        · exact Or.inl rfl
        · exact Or.inr ⟨hr, hmr⟩
    · rw [if_neg hm]
      simp only [List.not_mem_nil, false_or]
      constructor
      · rintro ⟨hr, hmr⟩
        exact ⟨Or.inr hr, hmr⟩
      · rintro ⟨rfl | hr, hmr⟩
        · exact absurd hmr hm
        · exact ⟨hr, hmr⟩
  | case3 pre rest nm children ih =>
    intro r
    rw [globWalkList_dir_skip, relPaths_dir_skip]
    simp only [List.mem_append, List.mem_cons, ih r]
    by_cases hm : globMatches pattern (joinRel pre nm).toList ci = true
    · rw [if_pos hm]
      simp only [List.mem_singleton]
      constructor
      · rintro (rfl | ⟨hr, hmr⟩)
        · exact ⟨Or.inl rfl, hm⟩
        · exact ⟨Or.inr hr, hmr⟩
      · rintro ⟨rfl | hr, hmr⟩
        · exact Or.inl rfl
        · exact Or.inr ⟨hr, hmr⟩
    · rw [if_neg hm]
      simp only [List.not_mem_nil, false_or]
      constructor
      · rintro ⟨hr, hmr⟩
        exact ⟨Or.inr hr, hmr⟩
      · rintro ⟨rfl | hr, hmr⟩
        · exact absurd hmr hm
        · exact ⟨hr, hmr⟩
  | case4 pre rest nm children rel ih1 ih2 =>
    intro r
    have ih1a : ∀ q : String, q ∈ (globWalkList pattern ci (joinRel pre nm) children).1 ↔
        (q ∈ relPaths (joinRel pre nm) children ∧
          globMatches pattern q.toList ci = true) := ih1
    rw [globWalkList_dir, relPaths_dir]
    simp only [List.mem_append, List.mem_cons, ih1a r, ih2 r]
    by_cases hm : globMatches pattern (joinRel pre nm).toList ci = true
    · rw [if_pos hm]
      simp only [List.mem_singleton]
      constructor
      · rintro (rfl | ⟨h1, h2⟩ | ⟨h1, h2⟩)
        · exact ⟨Or.inl rfl, hm⟩
        · exact ⟨Or.inr (Or.inl h1), h2⟩
        · exact ⟨Or.inr (Or.inr h1), h2⟩
      · rintro ⟨rfl | h1 | h1, h2⟩
        · exact Or.inl rfl
        · exact Or.inr (Or.inl ⟨h1, h2⟩)
        · exact Or.inr (Or.inr ⟨h1, h2⟩)
    · rw [if_neg hm]
      simp only [List.not_mem_nil, false_or]
      constructor
      · rintro (⟨h1, h2⟩ | ⟨h1, h2⟩)
        · exact ⟨Or.inr (Or.inl h1), h2⟩
        · exact ⟨Or.inr (Or.inr h1), h2⟩
      · rintro ⟨rfl | h1 | h1, h2⟩
        · exact absurd h2 hm
        · exact Or.inl ⟨h1, h2⟩
        · exact Or.inr ⟨h1, h2⟩

/-- The glob walk also releases every handle it opens. -/
theorem globWalkList_netOpen (pattern : Option (List Char)) (ci : Bool) :
    ∀ (pre : String) (ts : List FSTree) (stk : List String),
      netOpen (globWalkList pattern ci pre ts).2 stk = some stk := by
  intro pre ts
  induction pre, ts using globWalkList.induct pattern ci with
  | case1 pre =>
    intro stk
    rw [globWalkList_nil]
    rfl
  | case2 pre rest nm ih =>
    intro stk
    rw [globWalkList_file]
    exact ih stk
  | case3 pre rest nm children ih =>
    intro stk
    rw [globWalkList_dir_skip]
    exact ih stk
  | case4 pre rest nm children rel ihc ihr =>
    intro stk
    rw [globWalkList_dir]
    show netOpen (_ ++ _) stk = some stk
    have ihca : netOpen (globWalkList pattern ci (joinRel pre nm) children).2
        ((joinRel pre nm) :: stk) = some ((joinRel pre nm) :: stk) := ihc _
    rw [netOpen_append, netOpen_block _ _ _ ihca]
    exact ihr stk

/-- The matcher in executable specification form (for concrete evaluation). -/
theorem globMatches_eq_naive (pattern : Option (List Char)) (name : List Char) (ci : Bool) :
    globMatches pattern name ci =
      (match pattern with
       | none => true
       | some pat => globNaive (globFold ci) pat name) := by
  cases pattern with
  | none => rfl
  | some pat =>
    exact globMatchAux_eq_naive (globFold ci) (slashFaithful_globFold ci) pat name

/-- Modelled from the spec: `SDL_GlobDirectory` (implementation not in
src/): NULL return on failure is `none`; success returns the array of
matching paths, always terminated by a NULL sentinel (a `none` entry),
together with the number of items before the sentinel (what the optional
`count` output receives). -/
def SDL_GlobDirectory (root : FSTree) (pattern : Option String) (flags : Nat) :
    Option (List (Option String) × Nat) :=
  match root with
  | .file _ => none
  | .dir _ false _ => none
  | .dir _ true children =>
    let rs := (globWalkList (pattern.map String.toList) (flags.testBit 0) "" children).1
    some (rs.map some ++ [none], rs.length)

/-! ## Claim C2: stop semantics of enumeration -/

/-- C2: a callback stopping with success on the third entry yields exactly
the first three entries visited and a success result; stopping with an
error on the first entry yields exactly one entry visited and a failure;
and in a recursive walk, once any stop decision is produced at any level,
no further entries are visited at any level and the top-level outcome
reflects that decision. -/
theorem C2_stop_semantics :
    (∀ (path : String) (entries : List String) (d : Nat → Int),
      3 ≤ entries.length → 0 < d 0 → 0 < d 1 → d 2 = 0 →
        (enumWithDecisions d (.ok entries) path).1 = .success ∧
        (enumWithDecisions d (.ok entries) path).2.1 = entries.take 3 ∧
        SDL_EnumerateDirectory (.ok entries) path (fun n _ _ => (d n, n + 1)) 0 = 0)
    ∧ (∀ (path : String) (entries : List String) (d : Nat → Int),
      1 ≤ entries.length → d 0 < 0 →
        (enumWithDecisions d (.ok entries) path).1 = .callbackError (d 0) ∧
        (enumWithDecisions d (.ok entries) path).2.1 = entries.take 1 ∧
        SDL_EnumerateDirectory (.ok entries) path (fun n _ _ => (d n, n + 1)) 0 < 0)
    ∧ (∀ (dirname : String) (ts : List FSTree) (d : Nat → Int) (k : Nat),
      k < (fullVisit ts).length → (∀ i, i < k → 0 < d i) → d k ≤ 0 →
        (walkList (fun j _ _ => (d j, j + 1)) 0 dirname ts).visited =
          (fullVisit ts).take (k + 1) ∧
        (walkList (fun j _ _ => (d j, j + 1)) 0 dirname ts).outcome =
          (if d k = 0 then .stoppedOk else .stoppedErr)) := by
  refine ⟨?_, ?_, ?_⟩
  · intro path entries d h3 hd0 hd1 hd2
    have h := enumLoop_stop path d 2 entries 0 (by omega) (by omega)
      (fun i _ hi2 => by
        have hi : i = 0 ∨ i = 1 := by omega
        rcases hi with rfl | rfl
        · exact hd0
        · exact hd1) (by omega)
    refine ⟨?_, ?_, ?_⟩
    · simp only [enumWithDecisions, enumerateDirectoryRun]
      rw [h, if_pos hd2]
    · simp only [enumWithDecisions, enumerateDirectoryRun]
      rw [h]
    · simp only [SDL_EnumerateDirectory, enumerateDirectoryRun]
      rw [h, if_pos hd2]
      rfl
  · intro path entries d h1 hd0
    have h := enumLoop_stop path d 0 entries 0 (by omega) (by omega)
      (fun i _ hi2 => absurd hi2 (by omega)) (by omega)
    refine ⟨?_, ?_, ?_⟩
    · simp only [enumWithDecisions, enumerateDirectoryRun]
      rw [h, if_neg (by omega : ¬d 0 = 0)]
    · simp only [enumWithDecisions, enumerateDirectoryRun]
      rw [h, if_neg (by omega : ¬d 0 = 0)]
    · simp only [SDL_EnumerateDirectory, enumerateDirectoryRun]
      rw [h, if_neg (by omega : ¬d 0 = 0)]
      show (-1 : Int) < 0
      decide
  · intro dirname ts d k hk hcont hstop
    obtain ⟨g1, g2, g3⟩ := walkList_stop d k hstop 0 dirname ts (by omega) (by omega)
      (fun i _ hi => hcont i hi)
    exact ⟨g2, g1⟩

/-- Closed witness for C2 at concrete inputs. -/
theorem C2_stop_semantics_witness :
    ((enumWithDecisions (fun n => if n < 2 then 1 else 0) (.ok ["a", "b", "c", "d"])
        "p").1 = .success ∧
      (enumWithDecisions (fun n => if n < 2 then 1 else 0) (.ok ["a", "b", "c", "d"])
        "p").2.1 = ["a", "b", "c", "d"].take 3 ∧
      SDL_EnumerateDirectory (.ok ["a", "b", "c", "d"]) "p"
        (fun n _ _ => ((if n < 2 then (1 : Int) else 0), n + 1)) 0 = 0)
    ∧ ((walkList (fun j _ _ => ((if j < 1 then (1 : Int) else -1), j + 1)) 0 "r"
        [FSTree.dir "s" true [FSTree.file "x"]]).visited =
          (fullVisit [FSTree.dir "s" true [FSTree.file "x"]]).take 2 ∧
      (walkList (fun j _ _ => ((if j < 1 then (1 : Int) else -1), j + 1)) 0 "r"
        [FSTree.dir "s" true [FSTree.file "x"]]).outcome = .stoppedErr) := by
  constructor
  · exact C2_stop_semantics.1 "p" ["a", "b", "c", "d"] (fun n => if n < 2 then 1 else 0)
      (by decide) (by decide) (by decide) (by decide)
  · have h := C2_stop_semantics.2.2 "r" [FSTree.dir "s" true [FSTree.file "x"]]
      (fun j => if j < 1 then (1 : Int) else -1) 1
      (by simp [fullVisit]) (fun i hi => by simp [hi]) (by decide)
    simpa using h

/-! ## Claim C3: empty glob result is success -/

/-- C3: globbing a directory tree in which no reachable entry matches the
pattern succeeds with a non-NULL, sentinel-terminated array of zero items,
and the count output is the number of items before the sentinel, 0. -/
theorem C3_empty_glob_success :
    ∀ (nm : String) (children : List FSTree) (pattern : Option String) (flags : Nat),
      (∀ r ∈ relPaths "" children,
        globMatches (pattern.map String.toList) r.toList (flags.testBit 0) = false) →
      SDL_GlobDirectory (.dir nm true children) pattern flags = some ([none], 0) ∧
      SDL_GlobDirectory (.dir nm true children) pattern flags ≠ none := by
  intro nm children pattern flags hnone
  have hempty :
      (globWalkList (pattern.map String.toList) (flags.testBit 0) "" children).1 = [] := by
    rw [List.eq_nil_iff_forall_not_mem]
    intro r hr
    rw [globWalkList_mem] at hr
    rw [hnone r hr.1] at hr
    exact Bool.noConfusion hr.2
  have hval : SDL_GlobDirectory (.dir nm true children) pattern flags =
      some ([none], 0) := by
    simp only [SDL_GlobDirectory]
    rw [hempty]
    rfl
  exact ⟨hval, by rw [hval]; exact Option.noConfusion⟩

/-- Closed witness for C3: a one-file tree with a pattern matching
nothing. -/
theorem C3_empty_glob_success_witness :
    SDL_GlobDirectory (.dir "d" true [.file "a"]) (some "b") 0 = some ([none], 0) ∧
    SDL_GlobDirectory (.dir "d" true [.file "a"]) (some "b") 0 ≠ none := by
  apply C3_empty_glob_success
  intro r hr
  rw [relPaths_file, relPaths_nil, List.mem_singleton] at hr
  subst hr
  rw [globMatches_eq_naive]
  decide

/-! ## Claim C5: recursive inclusion -/

/-- C5: the glob walk's results are exactly the reachable entries whose
accumulated relative path matches the pattern: a matching directory entry is
itself included, and the walk still recurses beneath it so that deeper
entries remain candidates.  On the spec's example tree d/sub/x.txt with
pattern `*`, `sub` is included even though recursion continues beneath it
(where `sub/x.txt` is still a candidate). -/
theorem C5_recursive_inclusion :
    (∀ (pattern : Option (List Char)) (ci : Bool) (pre : String) (ts : List FSTree)
      (r : String),
      r ∈ (globWalkList pattern ci pre ts).1 ↔
        (r ∈ relPaths pre ts ∧ globMatches pattern r.toList ci = true))
    ∧ ("sub" ∈ (globWalkList (some ['*']) false ""
        [.dir "sub" true [.file "x.txt"]]).1)
    ∧ ("sub/x.txt" ∈ relPaths "" [.dir "sub" true [.file "x.txt"]]) := by
  refine ⟨globWalkList_mem, ?_, ?_⟩
  · rw [globWalkList_mem]
    constructor
    · rw [relPaths_dir, relPaths_file, relPaths_nil]
      decide
    · rw [globMatches_eq_naive]
      decide
  · rw [relPaths_dir, relPaths_file, relPaths_nil]
    decide

/-! ## Claim C8: directory-handle release -/

/-- C8: after any completed or aborted walk — normal completion, early stop
decision, or error (including subdirectories whose open fails) — the
open/close trace of directory handles is well-nested and leaves no handle
open, for the recursive enumeration walk and for the glob walk alike. -/
theorem C8_handle_release :
    (∀ (σ : Type) (cb : σ → String → String → Int × σ) (st : σ) (root : String)
      (openable : Bool) (ts : List FSTree),
      netOpen (walkRoot cb st root openable ts).events [] = some [])
    ∧ (∀ (pattern : Option (List Char)) (ci : Bool) (pre : String) (ts : List FSTree),
      netOpen (globWalkList pattern ci pre ts).2 [] = some []) := by
  constructor
  · intro σ cb st root op ts
    exact walkRoot_netOpen cb st root op ts []
  · intro pattern ci pre ts
    exact globWalkList_netOpen pattern ci pre ts []

/-! ## PathClassifier and SDL_GetPathInfo -/

inductive SDL_PathType where
  | NONE
  | FILE
  | DIRECTORY
  | OTHER
deriving DecidableEq

structure SDL_PathInfo where
  type : SDL_PathType
  size : Nat
  create_time : Int
  modify_time : Int
  access_time : Int
deriving DecidableEq

inductive FSError where
  | NotFound
  | IOError
deriving DecidableEq

/-- Modelled from the spec: `PathClassifier.classify` (implementation not in
src/): on a path that does not exist it does not fail but returns
`PathType::None` with zero/unknown remaining fields.  The filesystem is an
association list from paths to the info of the existing entries. -/
def classify (fs : List (String × SDL_PathInfo)) (path : String) : SDL_PathInfo :=
  match fs.lookup path with
  | some info => info
  | none => ⟨.NONE, 0, 0, 0, 0⟩

/-- Modelled from the spec: `SDL_GetPathInfo`, the explicit
existence-with-info query; per the header it returns a negative error code
if the path does not exist, i.e. absence surfaces as NotFound. -/
def SDL_GetPathInfo (fs : List (String × SDL_PathInfo)) (path : String) :
    Except FSError SDL_PathInfo :=
  if (classify fs path).type = .NONE then .error .NotFound
  else .ok (classify fs path)

/-! ## Claim C4: path info on a nonexistent path -/

/-- C4: for every path that does not exist, the classification query returns
`PathType::None` with zero/unknown remaining fields rather than failing,
while the explicit existence-with-info query (`SDL_GetPathInfo`) surfaces
the absence as a NotFound failure. -/
theorem C4_nonexistent_path_info :
    ∀ (fs : List (String × SDL_PathInfo)) (path : String),
      fs.lookup path = none →
      classify fs path = ⟨.NONE, 0, 0, 0, 0⟩ ∧
      SDL_GetPathInfo fs path = .error .NotFound := by
  intro fs path h
  have hc : classify fs path = ⟨.NONE, 0, 0, 0, 0⟩ := by
    simp only [classify, h]
  refine ⟨hc, ?_⟩
  simp only [SDL_GetPathInfo, hc]
  rfl

/-- Closed witness for C4: a filesystem with one file, queried at an absent
path. -/
theorem C4_nonexistent_path_info_witness :
    classify [("a", ⟨.FILE, 3, 1, 2, 3⟩)] "b" = ⟨.NONE, 0, 0, 0, 0⟩ ∧
    SDL_GetPathInfo [("a", ⟨.FILE, 3, 1, 2, 3⟩)] "b" = .error .NotFound :=
  C4_nonexistent_path_info _ _ (by decide)

end SDLFS
